import Mathlib

/-! ## Definitions: the shallow embedding of the auction canister -/

/-- A canister principal: an opaque identity with decidable equality and a
total order (the only operations the auction code uses on it). -/
abbrev Principal := Nat

/-- `2^64`, the modulus of Rust's `u64` arithmetic. -/
def U64MOD : Nat := 18446744073709551616

/-- Association-list model of `BTreeMap` with `Nat` keys. The maps built
by the operations are strictly sorted by key. -/
abbrev Mmap (α : Type) := List (Nat × α)

/-- `BTreeMap::get`. -/
def mfind? {α : Type} : Mmap α → Nat → Option α
  | [], _ => none
  | (k', v) :: t, k => if k = k' then some v else mfind? t k

/-- `BTreeMap::insert`: insert or replace, keeping the list sorted by key. -/
def minsert {α : Type} (k : Nat) (v : α) : Mmap α → Mmap α
  | [] => [(k, v)]
  | (k', v') :: t =>
    if k < k' then (k, v) :: (k', v') :: t
    else if k = k' then (k, v) :: t
    else (k', v') :: minsert k v t

/-- `BTreeMap::values`: values in ascending key order. -/
def mvalues {α : Type} (l : Mmap α) : List α := l.map Prod.snd

/-- `BTreeMap::len`. -/
def msize {α : Type} (l : Mmap α) : Nat := l.length

/-- Keys in strictly ascending order (the `BTreeMap` representation
invariant). -/
def SortedKeys {α : Type} (l : Mmap α) : Prop :=
  l.Pairwise (fun a b => a.1 < b.1)

/-- `struct Item` from the source. -/
structure Item where
  id : Nat
  owner : Principal
  name : String
  description : String
  current_highest_bid : Nat
  highest_bidder : Option Principal
  active : Bool
  new_owner : Option Principal
deriving DecidableEq, Repr

/-- `struct Bid` from the source. -/
structure Bid where
  bidder : Principal
  amount : Nat
deriving DecidableEq, Repr

/-- `struct CanisterState` from the source. -/
structure CanisterState where
  items : Mmap Item
  item_bids : Mmap (Mmap Bid)
  next_item_id : Nat
deriving DecidableEq, Repr

/-- The initial state of the `thread_local!` static. -/
def initialState : CanisterState := ⟨[], [], 0⟩

/-- `"Item not found."` -/
def notFoundMsg : String := "Item not found."

/-- `"Auction for this item is no longer active."` -/
def inactiveBidMsg : String := "Auction for this item is no longer active."

/-- `"Cannot bid on your own item."` -/
def selfBidMsg : String := "Cannot bid on your own item."

/-- The formatted `BidTooLow` message of `bid_for_item`. -/
def bidTooLowMsg (amount chb : Nat) : String :=
  "Bid amount (" ++ toString amount ++
    ") must be higher than the current highest bid (" ++ toString chb ++ ")."

/-- `"Bid placed successfully."` -/
def bidOkMsg : String := "Bid placed successfully."

/-- `"Only the owner can update this listing."` -/
def notOwnerUpdateMsg : String := "Only the owner can update this listing."

/-- `"Cannot update a listing that is no longer active."` -/
def inactiveUpdateMsg : String := "Cannot update a listing that is no longer active."

/-- `"Listing updated successfully."` -/
def updateOkMsg : String := "Listing updated successfully."

/-- `"Only the owner can stop this listing."` -/
def notOwnerStopMsg : String := "Only the owner can stop this listing."

/-- `"Listing is already stopped."` -/
def alreadyStoppedMsg : String := "Listing is already stopped."

/-- `"Listing stopped successfully. Highest bidder is now the owner."` -/
def stopOkMsg : String := "Listing stopped successfully. Highest bidder is now the owner."

/-- `list_item` (update call 1): allocates the next id, inserts a fresh
item and an empty bid ledger, and returns the id. The `u64` counter
increment wraps modulo `2^64`. -/
def list_item (s : CanisterState) (caller : Principal)
    (name description : String) : Nat × CanisterState :=
  let item_id := s.next_item_id
  let new_item : Item :=
    { id := item_id, owner := caller, name := name, description := description
      current_highest_bid := 0, highest_bidder := none
      active := true, new_owner := none }
  (item_id,
    { items := minsert item_id new_item s.items
      item_bids := minsert item_id [] s.item_bids
      next_item_id := (item_id + 1) % U64MOD })

/-- `bid_for_item` (update call 2): validates existence, activity,
non-ownership and strict bid increase in that order, then updates the
item's highest bid/bidder and upserts the caller's ledger entry. -/
def bid_for_item (s : CanisterState) (caller : Principal)
    (item_id amount : Nat) : Except String String × CanisterState :=
  match mfind? s.items item_id with
  | none => (Except.error notFoundMsg, s)
  | some item =>
    if !item.active then (Except.error inactiveBidMsg, s)
    else if item.owner = caller then (Except.error selfBidMsg, s)
    else if amount ≤ item.current_highest_bid then
      (Except.error (bidTooLowMsg amount item.current_highest_bid), s)
    else
      let item' := { item with current_highest_bid := amount
                               highest_bidder := some caller }
      let ledger := (mfind? s.item_bids item_id).getD []
      (Except.ok bidOkMsg,
        { s with items := minsert item_id item' s.items
                 item_bids :=
                   minsert item_id
                     (minsert caller { bidder := caller, amount := amount } ledger)
                     s.item_bids })

/-- `update_listing` (update call 3): owner-only, active-only replacement
of the text fields; `None` arguments leave a field unchanged. -/
def update_listing (s : CanisterState) (caller : Principal) (item_id : Nat)
    (new_name new_description : Option String) :
    Except String String × CanisterState :=
  match mfind? s.items item_id with
  | none => (Except.error notFoundMsg, s)
  | some item =>
    if item.owner ≠ caller then (Except.error notOwnerUpdateMsg, s)
    else if !item.active then (Except.error inactiveUpdateMsg, s)
    else
      let item' := { item with name := new_name.getD item.name
                               description := new_description.getD item.description }
      (Except.ok updateOkMsg, { s with items := minsert item_id item' s.items })

/-- `stop_listing` (update call 4): owner-only; deactivates the item and
snapshots `new_owner := highest_bidder`. -/
def stop_listing (s : CanisterState) (caller : Principal) (item_id : Nat) :
    Except String String × CanisterState :=
  match mfind? s.items item_id with
  | none => (Except.error notFoundMsg, s)
  | some item =>
    if item.owner ≠ caller then (Except.error notOwnerStopMsg, s)
    else if !item.active then (Except.error alreadyStoppedMsg, s)
    else
      let item' := { item with active := false, new_owner := item.highest_bidder }
      (Except.ok stopOkMsg, { s with items := minsert item_id item' s.items })

/-- Query `get_item`. -/
def get_item (s : CanisterState) (item_id : Nat) : Option Item :=
  mfind? s.items item_id

/-- Query `list_all_items`. -/
def list_all_items (s : CanisterState) : List Item := mvalues s.items

/-- Query `get_listed_items_count`. -/
def get_listed_items_count (s : CanisterState) : Nat := s.items.length

/-- Rust's `Iterator::max_by_key`: the maximal element, the LAST one when
several are equally maximal. -/
def maxByKeyLast {α : Type} (key : α → Nat) : List α → Option α
  | [] => none
  | x :: xs => some (xs.foldl (fun acc y => if key acc ≤ key y then y else acc) x)

/-- Query `get_most_expensive_sold_item`: filters inactive items with a
`new_owner`, then `max_by_key(current_highest_bid)`. -/
def get_most_expensive_sold_item (s : CanisterState) : Option Item :=
  maxByKeyLast (fun it => it.current_highest_bid)
    ((mvalues s.items).filter (fun it => !it.active && it.new_owner.isSome))

/-- Query `get_item_with_most_bids`: the source's loop over
`items.values()` carrying `(item_with_most_bids, max_bids_count)`,
updating on a strictly greater ledger size. -/
def get_item_with_most_bids (s : CanisterState) : Option Item :=
  ((mvalues s.items).foldl
    (fun (acc : Option Item × Nat) it =>
      match mfind? s.item_bids it.id with
      | some bids => if msize bids > acc.2 then (some it, msize bids) else acc
      | none => acc)
    (none, 0)).1

/-- Query `get_bids_for_item`: the ledger's values, empty if absent. -/
def get_bids_for_item (s : CanisterState) (item_id : Nat) : List Bid :=
  ((mfind? s.item_bids item_id).map mvalues).getD []

/-- Query `get_highest_bid_for_item`: looks up the item, then its
`highest_bidder`, then that bidder's ledger entry (keyed by `item.id`). -/
def get_highest_bid_for_item (s : CanisterState) (item_id : Nat) : Option Bid :=
  (mfind? s.items item_id).bind fun item =>
    item.highest_bidder.bind fun bidder =>
      (mfind? s.item_bids item.id).bind fun bids_map =>
        mfind? bids_map bidder

/-- The aggregate produced by a successful `bid_for_item`. -/
def bidSuccState (s : CanisterState) (c : Principal) (i a : Nat) (it : Item) :
    CanisterState :=
  { s with
    items := minsert i { it with current_highest_bid := a
                                 highest_bidder := some c } s.items
    item_bids :=
      minsert i (minsert c { bidder := c, amount := a }
          ((mfind? s.item_bids i).getD [])) s.item_bids }

/-- The aggregate produced by a successful `update_listing`. -/
def updSuccState (s : CanisterState) (i : Nat)
    (nn nd : Option String) (it : Item) : CanisterState :=
  { s with items := minsert i { it with name := nn.getD it.name
                                        description := nd.getD it.description } s.items }

/-- The aggregate produced by a successful `stop_listing`. -/
def stopSuccState (s : CanisterState) (i : Nat) (it : Item) : CanisterState :=
  { s with items := minsert i { it with active := false
                                        new_owner := it.highest_bidder } s.items }

/-- Modelled from the spec: snapshot encoding of one text field. -/
def encStr (t : String) : List Nat := t.data.length :: t.data.map Char.toNat

/-- Modelled from the spec: decoder for a counted run of characters. -/
def decChars : Nat → List Nat → Option (List Char × List Nat)
  | 0, l => some ([], l)
  | _ + 1, [] => none
  | n + 1, x :: l => (decChars n l).map (fun cr => (Char.ofNat x :: cr.1, cr.2))

/-- Modelled from the spec: decoder for one text field. -/
def decStr : List Nat → Option (String × List Nat)
  | [] => none
  | n :: l => (decChars n l).map (fun cr => (String.mk cr.1, cr.2))

/-- Modelled from the spec: snapshot encoding of an optional principal. -/
def encOptNat : Option Nat → List Nat
  | none => [0]
  | some p => [1, p]

/-- Modelled from the spec: decoder for an optional principal. -/
def decOptNat : List Nat → Option (Option Nat × List Nat)
  | 0 :: l => some (none, l)
  | 1 :: p :: l => some (some p, l)
  | _ => none

/-- Modelled from the spec: snapshot encoding of a boolean flag. -/
def encBool (b : Bool) : List Nat := [if b then 1 else 0]

/-- Modelled from the spec: decoder for a boolean flag. -/
def decBool : List Nat → Option (Bool × List Nat)
  | 0 :: l => some (false, l)
  | 1 :: l => some (true, l)
  | _ => none

/-- Modelled from the spec: snapshot encoding of one `Item`. -/
def encItem (it : Item) : List Nat :=
  it.id :: it.owner :: (encStr it.name ++ encStr it.description ++
    it.current_highest_bid :: (encOptNat it.highest_bidder ++
      encBool it.active ++ encOptNat it.new_owner))

/-- Modelled from the spec: decoder for one `Item`. -/
def decItem (l : List Nat) : Option (Item × List Nat) :=
  match l with
  | i :: o :: l1 =>
    match decStr l1 with
    | some (nm, l2) =>
      match decStr l2 with
      | some (ds, l3) =>
        match l3 with
        | chb :: l4 =>
          match decOptNat l4 with
          | some (hb, l5) =>
            match decBool l5 with
            | some (ac, l6) =>
              match decOptNat l6 with
              | some (no, l7) => some (⟨i, o, nm, ds, chb, hb, ac, no⟩, l7)
              | none => none
            | none => none
          | none => none
        | [] => none
      | none => none
    | none => none
  | _ => none

/-- Modelled from the spec: snapshot encoding of the entries of one bid
ledger. -/
def encLedgerEntries : Mmap Bid → List Nat
  | [] => []
  | (k, bd) :: t => k :: bd.bidder :: bd.amount :: encLedgerEntries t

/-- Modelled from the spec: decoder for a counted run of ledger entries. -/
def decLedgerEntries : Nat → List Nat → Option (Mmap Bid × List Nat)
  | 0, l => some ([], l)
  | n + 1, k :: b :: a :: l =>
    (decLedgerEntries n l).map (fun er => ((k, ⟨b, a⟩) :: er.1, er.2))
  | _ + 1, _ => none

/-- Modelled from the spec: snapshot encoding of one bid ledger. -/
def encLedger (L : Mmap Bid) : List Nat := L.length :: encLedgerEntries L

/-- Modelled from the spec: decoder for one bid ledger. -/
def decLedger : List Nat → Option (Mmap Bid × List Nat)
  | [] => none
  | n :: l => decLedgerEntries n l

/-- Modelled from the spec: snapshot encoding of the entries of the items
map. -/
def encItemsEntries : Mmap Item → List Nat
  | [] => []
  | (k, it) :: t => k :: (encItem it ++ encItemsEntries t)

/-- Modelled from the spec: decoder for a counted run of items-map
entries. -/
def decItemsEntries : Nat → List Nat → Option (Mmap Item × List Nat)
  | 0, l => some ([], l)
  | n + 1, k :: l =>
    match decItem l with
    | some (it, l1) =>
      (decItemsEntries n l1).map (fun er => ((k, it) :: er.1, er.2))
    | none => none
  | _ + 1, [] => none

/-- Modelled from the spec: snapshot encoding of the entries of the
bid-ledger map. -/
def encBidsEntries : Mmap (Mmap Bid) → List Nat
  | [] => []
  | (k, L) :: t => k :: (encLedger L ++ encBidsEntries t)

/-- Modelled from the spec: decoder for a counted run of bid-ledger-map
entries. -/
def decBidsEntries : Nat → List Nat → Option (Mmap (Mmap Bid) × List Nat)
  | 0, l => some ([], l)
  | n + 1, k :: l =>
    match decLedger l with
    | some (L, l1) =>
      (decBidsEntries n l1).map (fun er => ((k, L) :: er.1, er.2))
    | none => none
  | _ + 1, [] => none

/-- Modelled from the spec: snapshot encoding of the whole aggregate
(items map, bid-ledger map, id counter). -/
def encState (s : CanisterState) : List Nat :=
  s.items.length :: (encItemsEntries s.items ++
    s.item_bids.length :: (encBidsEntries s.item_bids ++ [s.next_item_id]))

/-- Modelled from the spec: decoder for the whole aggregate. -/
def decState (l : List Nat) : Option (CanisterState × List Nat) :=
  match l with
  | n :: l1 =>
    match decItemsEntries n l1 with
    | some (its, l2) =>
      match l2 with
      | m :: l3 =>
        match decBidsEntries m l3 with
        | some (bids, l4) =>
          match l4 with
          | next :: l5 => some (⟨its, bids, next⟩, l5)
          | [] => none
        | none => none
      | [] => none
    | none => none
  | [] => none

/-- Modelled from the spec: `pre_upgrade`'s `storage::stable_save` of the
whole aggregate. -/
def stable_save (s : CanisterState) : List Nat := encState s

/-- Modelled from the spec: `post_upgrade`'s `storage::stable_restore`.
Empty stable memory yields fresh state; a snapshot that decodes yields
the decoded aggregate; anything else is the fatal decode failure. -/
def stable_restore : List Nat → Except String CanisterState
  | [] => Except.ok initialState
  | x :: t =>
    match decState (x :: t) with
    | some (s, []) => Except.ok s
    | _ => Except.error "Failed to decode state from stable memory"

/-- One external operation on the aggregate: the four update calls plus a
save/restore (upgrade) cycle. -/
inductive Op where
  | oplist (caller : Principal) (name description : String)
  | opbid (caller : Principal) (item_id amount : Nat)
  | opupdate (caller : Principal) (item_id : Nat)
      (new_name new_description : Option String)
  | opstop (caller : Principal) (item_id : Nat)
  | opupgrade
deriving DecidableEq, Repr

/-- The state transition of one operation (queries do not mutate). -/
def stepOp (s : CanisterState) : Op → CanisterState
  | .oplist c nm ds => (list_item s c nm ds).2
  | .opbid c i a => (bid_for_item s c i a).2
  | .opupdate c i nn nd => (update_listing s c i nn nd).2
  | .opstop c i => (stop_listing s c i).2
  | .opupgrade =>
    match stable_restore (stable_save s) with
    | Except.ok t => t
    | Except.error _ => s

/-- Run a trace of operations. -/
def runOps (s : CanisterState) (ops : List Op) : CanisterState :=
  ops.foldl stepOp s

/-- A state is reachable when some operation trace from the fresh initial
state produces it. -/
def Reachable (s : CanisterState) : Prop :=
  ∃ ops, runOps initialState ops = s

/-- The relation between an item and its bid ledger maintained by every
operation: entries are keyed by their bidder, no recorded amount exceeds
the item's current highest bid, and the current highest bidder's entry is
present and records exactly the current highest bid. -/
def LedgerInv (it : Item) (L : Mmap Bid) : Prop :=
  (∀ p ∈ L, (p : Nat × Bid).2.bidder = p.1 ∧
    p.2.amount ≤ it.current_highest_bid) ∧
  (∀ b, it.highest_bidder = some b →
    mfind? L b = some { bidder := b, amount := it.current_highest_bid })

/-- The aggregate invariant of reachable states: all maps are sorted,
every item is keyed by its own `id`, every item has a bid ledger, and
each ledger satisfies `LedgerInv`. -/
def StInv (s : CanisterState) : Prop :=
  SortedKeys s.items ∧ SortedKeys s.item_bids ∧
  (∀ i L, mfind? s.item_bids i = some L → SortedKeys L) ∧
  (∀ i it, mfind? s.items i = some it →
    it.id = i ∧ ∃ L, mfind? s.item_bids i = some L ∧ LedgerInv it L)

/-- The amounts of a bid history are strictly increasing. -/
def IncrAmts (l : List Bid) : Prop :=
  List.Chain' (fun x y => x.amount < y.amount) l

/-- The amount of the last accepted bid (`0` when none). -/
def lastAmt (l : List Bid) : Nat := ((l.getLast?).map Bid.amount).getD 0

/-- The maximum accepted amount (`0` when none). -/
def maxAmt (l : List Bid) : Nat := l.foldl (fun m b => max m b.amount) 0

/-- How one operation extends the list of bids accepted for the item at
id `i`: a successful `bid_for_item` on `i` appends `(caller, amount)`; a
`list_item` that allocates id `i` begins a fresh item there, restarting
its history. -/
def accStep (i : Nat) (acc : List Bid) (s : CanisterState) : Op → List Bid
  | .oplist _ _ _ => if s.next_item_id = i then [] else acc
  | .opbid c j a =>
    match (bid_for_item s c j a).1 with
    | Except.ok _ =>
      if j = i then acc ++ [{ bidder := c, amount := a }] else acc
    | Except.error _ => acc
  | _ => acc

/-- The accepted-bid history of the item at id `i` accumulated along a
trace, starting from history `acc` in state `s`. -/
def accAfter (i : Nat) (acc : List Bid) (s : CanisterState) :
    List Op → List Bid
  | [] => acc
  | op :: rest => accAfter i (accStep i acc s op) (stepOp s op) rest

/-- All bids accepted by `bid_for_item` for the item currently at id `i`
along a trace from the fresh initial state. -/
def acceptedOn (i : Nat) (ops : List Op) : List Bid :=
  accAfter i [] initialState ops

/-- The per-item history invariant: the accepted amounts are strictly
increasing, `current_highest_bid` is the last accepted amount (`0` when
none), and `highest_bidder` is the last accepted bidder (`none` when
none). -/
def HistInvAt (s : CanisterState) (i : Nat) (acc : List Bid) : Prop :=
  match mfind? s.items i with
  | none => acc = []
  | some it =>
    IncrAmts acc ∧ it.current_highest_bid = lastAmt acc ∧
      it.highest_bidder = (acc.getLast?).map Bid.bidder

/-- The maximum of `key` over a list (`0` when empty). -/
def listMaxKey {α : Type} (key : α → Nat) (l : List α) : Nat :=
  l.foldl (fun m x => max m (key x)) 0

/-- The ledger size consulted by `get_item_with_most_bids` for an item
(`0` when the item has no ledger). -/
def cntOf (s : CanisterState) (it : Item) : Nat :=
  msize ((mfind? s.item_bids it.id).getD [])

/-- The number of `list_item` calls in a trace. -/
def listCalls : List Op → Nat
  | [] => 0
  | op :: rest =>
    match op with
    | Op.oplist _ _ _ => listCalls rest + 1
    | _ => listCalls rest

/-- The ids returned by the `list_item` calls of a trace, in call order. -/
def returnedIds (s : CanisterState) : List Op → List Nat
  | [] => []
  | op :: rest =>
    match op with
    | Op.oplist c nm ds =>
      (list_item s c nm ds).1 :: returnedIds (stepOp s op) rest
    | _ => returnedIds (stepOp s op) rest

/-- One listed item (id 0, owner 7), still active, no bids. -/
def listedState : CanisterState :=
  runOps initialState [Op.oplist 7 "vase" "blue"]

/-- `listedState` after its owner stopped item 0. -/
def stoppedState : CanisterState :=
  runOps initialState [Op.oplist 7 "vase" "blue", Op.opstop 7 0]

/-- Trace for the C1 witness: one item, two accepted bids (10 then 15). -/
def twoBidOps : List Op :=
  [Op.oplist 1 "vase" "blue", Op.opbid 2 0 10, Op.opbid 3 0 15]

/-- The sold items `get_most_expensive_sold_item` filters: inactive with a
`new_owner`, in ascending-id iteration order. -/
def soldItems (s : CanisterState) : List Item :=
  (mvalues s.items).filter (fun it => !it.active && it.new_owner.isSome)

/-- Trace producing two sold items (ids 0 and 1) tied at highest bid 10. -/
def tiedSoldOps : List Op :=
  [Op.oplist 1 "a" "x", Op.oplist 1 "b" "y", Op.opbid 2 0 10, Op.opbid 2 1 10,
    Op.opstop 1 0, Op.opstop 1 1]

/-- The state reached by `tiedSoldOps`. -/
def tiedSoldState : CanisterState := runOps initialState tiedSoldOps

/-- One listed item and no bids at all. -/
def oneItemNoBids : CanisterState := runOps initialState [Op.oplist 5 "a" "b"]

/-- One item with one recorded bid. -/
def oneItemOneBid : CanisterState :=
  runOps initialState [Op.oplist 1 "a" "b", Op.opbid 2 0 5]

/-- A trace of `n` identical `list_item` calls. -/
def listOnlyOps (n : Nat) : List Op := List.replicate n (Op.oplist 0 "n" "d")

/-- The state reached by `twoBidOps` (item 0 with bids 10 by 2, then 15
by 3). -/
def twoBidState : CanisterState := runOps initialState twoBidOps

/-! ## Theorems -/

theorem mfind?_minsert_self {α : Type} (l : Mmap α) (k : Nat) (v : α) :
    mfind? (minsert k v l) k = some v := by
  induction l with
  | nil => simp [minsert, mfind?]
  | cons p t ih =>
    obtain ⟨k', v'⟩ := p
    by_cases h1 : k < k'
    · simp [minsert, h1, mfind?]
    · by_cases h2 : k = k'
      · simp [minsert, h1, h2, mfind?]
      · simpa [minsert, h1, h2, mfind?] using ih

theorem mfind?_minsert_ne {α : Type} (l : Mmap α) {k k2 : Nat} (v : α)
    (h : k2 ≠ k) : mfind? (minsert k v l) k2 = mfind? l k2 := by
  induction l with
  | nil => simp [minsert, mfind?, h]
  | cons p t ih =>
    obtain ⟨k', v'⟩ := p
    by_cases h1 : k < k'
    · simp [minsert, h1, mfind?, h]
    · by_cases h2 : k = k'
      · subst h2; simp [minsert, h1, mfind?, h]
      · simp only [minsert, if_neg h1, if_neg h2, mfind?]
        by_cases h3 : k2 = k'
        · simp [h3]
        · simp [h3, ih]

theorem mem_minsert {α : Type} {l : Mmap α} {k : Nat} {v : α} {p : Nat × α}
    (h : p ∈ minsert k v l) : p = (k, v) ∨ p ∈ l := by
  induction l with
  | nil => simpa [minsert] using h
  | cons q t ih =>
    obtain ⟨k', v'⟩ := q
    by_cases h1 : k < k'
    · simp only [minsert, if_pos h1, List.mem_cons] at h
      rcases h with h | h | h
      · exact Or.inl h
      · exact Or.inr (by simp [h])
      · exact Or.inr (by simp [h])
    · by_cases h2 : k = k'
      · simp only [minsert, if_neg h1, if_pos h2, List.mem_cons] at h
        rcases h with h | h
        · exact Or.inl h
        · exact Or.inr (by simp [h])
      · simp only [minsert, if_neg h1, if_neg h2, List.mem_cons] at h
        rcases h with h | h
        · exact Or.inr (by simp [h])
        · rcases ih h with h | h
          · exact Or.inl h
          · exact Or.inr (by simp [h])

theorem sortedKeys_minsert {α : Type} {l : Mmap α} (k : Nat) (v : α)
    (hs : SortedKeys l) : SortedKeys (minsert k v l) := by
  induction l with
  | nil => simp [minsert, SortedKeys]
  | cons p t ih =>
    obtain ⟨k', v'⟩ := p
    rw [SortedKeys, List.pairwise_cons] at hs
    obtain ⟨hlt, ht⟩ := hs
    by_cases h1 : k < k'
    · rw [SortedKeys, minsert, if_pos h1, List.pairwise_cons]
      refine ⟨?_, List.Pairwise.cons hlt ht⟩
      intro q hq
      rcases List.mem_cons.mp hq with h | h
      · simp [h, h1]
      · exact lt_trans h1 (hlt q h)
    · by_cases h2 : k = k'
      · subst h2
        rw [SortedKeys, minsert, if_neg h1, if_pos rfl, List.pairwise_cons]
        exact ⟨hlt, ht⟩
      · have h3 : k' < k := by omega
        rw [SortedKeys, minsert, if_neg h1, if_neg h2, List.pairwise_cons]
        refine ⟨?_, ih ht⟩
        intro q hq
        rcases mem_minsert hq with h | h
        · simp [h, h3]
        · exact hlt q h

theorem sortedKeys_nil {α : Type} : SortedKeys ([] : Mmap α) := List.Pairwise.nil

theorem bid_not_found {s : CanisterState} {c : Principal} {i a : Nat}
    (hf : mfind? s.items i = none) :
    bid_for_item s c i a = (Except.error notFoundMsg, s) := by
  simp [bid_for_item, hf]

theorem bid_inactive {s : CanisterState} {c : Principal} {i a : Nat} {it : Item}
    (hf : mfind? s.items i = some it) (ha : it.active = false) :
    bid_for_item s c i a = (Except.error inactiveBidMsg, s) := by
  simp [bid_for_item, hf, ha]

theorem bid_self {s : CanisterState} {c : Principal} {i a : Nat} {it : Item}
    (hf : mfind? s.items i = some it) (ha : it.active = true) (ho : it.owner = c) :
    bid_for_item s c i a = (Except.error selfBidMsg, s) := by
  simp [bid_for_item, hf, ha, ho]

theorem bid_too_low {s : CanisterState} {c : Principal} {i a : Nat} {it : Item}
    (hf : mfind? s.items i = some it) (ha : it.active = true) (ho : it.owner ≠ c)
    (hb : a ≤ it.current_highest_bid) :
    bid_for_item s c i a =
      (Except.error (bidTooLowMsg a it.current_highest_bid), s) := by
  simp [bid_for_item, hf, ha, ho, hb]

theorem bid_success {s : CanisterState} {c : Principal} {i a : Nat} {it : Item}
    (hf : mfind? s.items i = some it) (ha : it.active = true) (ho : it.owner ≠ c)
    (hb : it.current_highest_bid < a) :
    bid_for_item s c i a = (Except.ok bidOkMsg, bidSuccState s c i a it) := by
  simp [bid_for_item, hf, ha, ho, Nat.not_le.mpr hb, bidSuccState]

theorem bid_cases (s : CanisterState) (c : Principal) (i a : Nat) :
    ((bid_for_item s c i a).2 = s ∧ ∃ e, (bid_for_item s c i a).1 = Except.error e)
    ∨ ∃ it, mfind? s.items i = some it ∧ it.active = true ∧ it.owner ≠ c ∧
        it.current_highest_bid < a ∧
        bid_for_item s c i a = (Except.ok bidOkMsg, bidSuccState s c i a it) := by
  cases hf : mfind? s.items i with
  | none => exact Or.inl (by simp [bid_not_found hf])
  | some it =>
    cases ha : it.active with
    | false => exact Or.inl (by simp [bid_inactive hf ha])
    | true =>
      by_cases ho : it.owner = c
      · exact Or.inl (by simp [bid_self hf ha ho])
      · by_cases hb : a ≤ it.current_highest_bid
        · exact Or.inl (by simp [bid_too_low hf ha ho hb])
        · exact Or.inr ⟨it, rfl, ha, ho, by omega,
            bid_success hf ha ho (by omega)⟩

theorem update_success {s : CanisterState} {c : Principal} {i : Nat}
    {nn nd : Option String} {it : Item}
    (hf : mfind? s.items i = some it) (ho : it.owner = c) (ha : it.active = true) :
    update_listing s c i nn nd = (Except.ok updateOkMsg, updSuccState s i nn nd it) := by
  simp [update_listing, hf, ho, ha, updSuccState]

theorem update_cases (s : CanisterState) (c : Principal) (i : Nat)
    (nn nd : Option String) :
    ((update_listing s c i nn nd).2 = s ∧
      ∃ e, (update_listing s c i nn nd).1 = Except.error e)
    ∨ ∃ it, mfind? s.items i = some it ∧ it.owner = c ∧ it.active = true ∧
        update_listing s c i nn nd = (Except.ok updateOkMsg, updSuccState s i nn nd it) := by
  cases hf : mfind? s.items i with
  | none => exact Or.inl (by simp [update_listing, hf])
  | some it =>
    by_cases ho : it.owner = c
    · cases ha : it.active with
      | false => exact Or.inl (by simp [update_listing, hf, ho, ha])
      | true => exact Or.inr ⟨it, rfl, ho, ha, update_success hf ho ha⟩
    · exact Or.inl (by simp [update_listing, hf, ho])

theorem stop_not_found {s : CanisterState} {c : Principal} {i : Nat}
    (hf : mfind? s.items i = none) :
    stop_listing s c i = (Except.error notFoundMsg, s) := by
  simp [stop_listing, hf]

theorem stop_not_owner {s : CanisterState} {c : Principal} {i : Nat} {it : Item}
    (hf : mfind? s.items i = some it) (ho : it.owner ≠ c) :
    stop_listing s c i = (Except.error notOwnerStopMsg, s) := by
  simp [stop_listing, hf, ho]

theorem stop_already {s : CanisterState} {c : Principal} {i : Nat} {it : Item}
    (hf : mfind? s.items i = some it) (ho : it.owner = c) (ha : it.active = false) :
    stop_listing s c i = (Except.error alreadyStoppedMsg, s) := by
  simp [stop_listing, hf, ho, ha]

theorem stop_success {s : CanisterState} {c : Principal} {i : Nat} {it : Item}
    (hf : mfind? s.items i = some it) (ho : it.owner = c) (ha : it.active = true) :
    stop_listing s c i = (Except.ok stopOkMsg, stopSuccState s i it) := by
  simp [stop_listing, hf, ho, ha, stopSuccState]

theorem stop_cases (s : CanisterState) (c : Principal) (i : Nat) :
    ((stop_listing s c i).2 = s ∧ ∃ e, (stop_listing s c i).1 = Except.error e)
    ∨ ∃ it, mfind? s.items i = some it ∧ it.owner = c ∧ it.active = true ∧
        stop_listing s c i = (Except.ok stopOkMsg, stopSuccState s i it) := by
  cases hf : mfind? s.items i with
  | none => exact Or.inl (by simp [stop_not_found hf])
  | some it =>
    by_cases ho : it.owner = c
    · cases ha : it.active with
      | false => exact Or.inl (by simp [stop_already hf ho ha])
      | true => exact Or.inr ⟨it, rfl, ho, ha, stop_success hf ho ha⟩
    · exact Or.inl (by simp [stop_not_owner hf ho])

theorem list_item_fst (s : CanisterState) (c : Principal) (nm ds : String) :
    (list_item s c nm ds).1 = s.next_item_id := rfl

theorem list_item_next (s : CanisterState) (c : Principal) (nm ds : String) :
    (list_item s c nm ds).2.next_item_id = (s.next_item_id + 1) % U64MOD := rfl

theorem decChars_enc (cs : List Char) (r : List Nat) :
    decChars cs.length (cs.map Char.toNat ++ r) = some (cs, r) := by
  induction cs with
  | nil => simp [decChars]
  | cons c t ih => simp [decChars, ih, Char.ofNat_toNat]

theorem decStr_enc (t : String) (r : List Nat) :
    decStr (encStr t ++ r) = some (t, r) := by
  cases t with
  | mk data => simp [encStr, decStr, decChars_enc]

theorem decOptNat_enc (o : Option Nat) (r : List Nat) :
    decOptNat (encOptNat o ++ r) = some (o, r) := by
  cases o <;> simp [encOptNat, decOptNat]

theorem decBool_enc (b : Bool) (r : List Nat) :
    decBool (encBool b ++ r) = some (b, r) := by
  cases b <;> simp [encBool, decBool]

theorem decItem_enc (it : Item) (r : List Nat) :
    decItem (encItem it ++ r) = some (it, r) := by
  obtain ⟨i, o, nm, ds, chb, hb, ac, no⟩ := it
  simp [encItem, decItem, decStr_enc, decOptNat_enc, decBool_enc,
    List.append_assoc]

theorem decLedgerEntries_enc (L : Mmap Bid) (r : List Nat) :
    decLedgerEntries L.length (encLedgerEntries L ++ r) = some (L, r) := by
  induction L with
  | nil => simp [encLedgerEntries, decLedgerEntries]
  | cons p t ih =>
    obtain ⟨k, bd⟩ := p
    obtain ⟨b, a⟩ := bd
    simp [encLedgerEntries, decLedgerEntries, ih]

theorem decLedger_enc (L : Mmap Bid) (r : List Nat) :
    decLedger (encLedger L ++ r) = some (L, r) := by
  simp [encLedger, decLedger, decLedgerEntries_enc]

theorem decItemsEntries_enc (m : Mmap Item) (r : List Nat) :
    decItemsEntries m.length (encItemsEntries m ++ r) = some (m, r) := by
  induction m with
  | nil => simp [encItemsEntries, decItemsEntries]
  | cons p t ih =>
    obtain ⟨k, it⟩ := p
    simp [encItemsEntries, decItemsEntries, decItem_enc, ih,
      List.append_assoc]

theorem decBidsEntries_enc (m : Mmap (Mmap Bid)) (r : List Nat) :
    decBidsEntries m.length (encBidsEntries m ++ r) = some (m, r) := by
  induction m with
  | nil => simp [encBidsEntries, decBidsEntries]
  | cons p t ih =>
    obtain ⟨k, L⟩ := p
    simp [encBidsEntries, decBidsEntries, decLedger_enc, ih,
      List.append_assoc]

theorem decState_enc (s : CanisterState) :
    decState (encState s) = some (s, []) := by
  obtain ⟨its, bids, next⟩ := s
  have h1 := decItemsEntries_enc its
    (bids.length :: (encBidsEntries bids ++ [next]))
  have h2 := decBidsEntries_enc bids [next]
  simp [encState, decState, h1, h2]

theorem stable_roundtrip (s : CanisterState) :
    stable_restore (stable_save s) = Except.ok s := by
  have h := decState_enc s
  obtain ⟨its, bids, next⟩ := s
  simp only [stable_save, encState] at h ⊢
  simp [stable_restore, h]

theorem stepOp_upgrade (s : CanisterState) : stepOp s Op.opupgrade = s := by
  simp [stepOp, stable_roundtrip]

theorem runOps_nil (s : CanisterState) : runOps s [] = s := rfl

theorem runOps_cons (s : CanisterState) (op : Op) (ops : List Op) :
    runOps s (op :: ops) = runOps (stepOp s op) ops := rfl

theorem inv_initialState : StInv initialState := by
  refine ⟨sortedKeys_nil, sortedKeys_nil, ?_, ?_⟩
  · intro i L h; simp [initialState, mfind?] at h
  · intro i it h; simp [initialState, mfind?] at h

theorem inv_step (s : CanisterState) (op : Op) (hs : StInv s) :
    StInv (stepOp s op) := by
  obtain ⟨hsi, hsb, hsl, hit⟩ := hs
  cases op with
  | opupgrade => rw [stepOp_upgrade]; exact ⟨hsi, hsb, hsl, hit⟩
  | oplist c nm ds =>
    show StInv (list_item s c nm ds).2
    set n := s.next_item_id with hn
    refine ⟨sortedKeys_minsert n _ hsi, sortedKeys_minsert n _ hsb, ?_, ?_⟩
    · intro i L hL
      by_cases hi : i = n
      · subst hi
        rw [show (list_item s c nm ds).2.item_bids = minsert n [] s.item_bids from rfl,
          mfind?_minsert_self] at hL
        cases hL; exact sortedKeys_nil
      · rw [show (list_item s c nm ds).2.item_bids = minsert n [] s.item_bids from rfl,
          mfind?_minsert_ne _ _ hi] at hL
        exact hsl i L hL
    · intro i it hfi
      by_cases hi : i = n
      · subst hi
        rw [show (list_item s c nm ds).2.items =
            minsert n ⟨n, c, nm, ds, 0, none, true, none⟩ s.items from rfl,
          mfind?_minsert_self] at hfi
        cases hfi
        refine ⟨rfl, [], ?_, ?_, ?_⟩
        · rw [show (list_item s c nm ds).2.item_bids = minsert n [] s.item_bids from rfl,
            mfind?_minsert_self]
        · intro p hp; simp at hp
        · intro b hb; simp at hb
      · rw [show (list_item s c nm ds).2.items = minsert n _ s.items from rfl,
          mfind?_minsert_ne _ _ hi] at hfi
        obtain ⟨hid, L, hL, hLI⟩ := hit i it hfi
        refine ⟨hid, L, ?_, hLI⟩
        rw [show (list_item s c nm ds).2.item_bids = minsert n [] s.item_bids from rfl,
          mfind?_minsert_ne _ _ hi]
        exact hL
  | opbid c i a =>
    show StInv (bid_for_item s c i a).2
    rcases bid_cases s c i a with ⟨heq, -⟩ | ⟨it, hf, ha, ho, hb, heq⟩
    · rw [heq]; exact ⟨hsi, hsb, hsl, hit⟩
    · rw [heq]
      obtain ⟨hid, L0, hL0, hmem, hhb⟩ := hit i it hf
      have hled : (mfind? s.item_bids i).getD [] = L0 := by rw [hL0]; rfl
      refine ⟨sortedKeys_minsert i _ hsi, sortedKeys_minsert i _ hsb, ?_, ?_⟩
      · intro j L hL
        by_cases hj : j = i
        · subst hj
          rw [show (bidSuccState s c j a it).item_bids =
              minsert j (minsert c { bidder := c, amount := a }
                ((mfind? s.item_bids j).getD [])) s.item_bids from rfl,
            mfind?_minsert_self] at hL
          cases hL
          rw [hled]
          exact sortedKeys_minsert c _ (hsl j L0 hL0)
        · rw [show (bidSuccState s c i a it).item_bids =
              minsert i _ s.item_bids from rfl,
            mfind?_minsert_ne _ _ hj] at hL
          exact hsl j L hL
      · intro j jt hfj
        by_cases hj : j = i
        · subst hj
          rw [show (bidSuccState s c j a it).items =
              minsert j ⟨it.id, it.owner, it.name, it.description, a, some c, it.active, it.new_owner⟩ s.items from rfl,
            mfind?_minsert_self] at hfj
          cases hfj
          refine ⟨hid, minsert c { bidder := c, amount := a }
            ((mfind? s.item_bids j).getD []), ?_, ?_, ?_⟩
          · rw [show (bidSuccState s c j a it).item_bids =
              minsert j (minsert c { bidder := c, amount := a }
                ((mfind? s.item_bids j).getD [])) s.item_bids from rfl,
              mfind?_minsert_self]
          · intro p hp
            rcases mem_minsert hp with hp | hp
            · subst hp; exact ⟨rfl, le_refl a⟩
            · rw [hled] at hp
              obtain ⟨hpb, hpa⟩ := hmem p hp
              exact ⟨hpb, le_trans hpa (le_of_lt hb)⟩
          · intro b hbb
            simp only [Option.some.injEq] at hbb
            subst hbb
            rw [mfind?_minsert_self]
        · rw [show (bidSuccState s c i a it).items =
              minsert i _ s.items from rfl,
            mfind?_minsert_ne _ _ hj] at hfj
          obtain ⟨hjd, L, hL, hLI⟩ := hit j jt hfj
          refine ⟨hjd, L, ?_, hLI⟩
          rw [show (bidSuccState s c i a it).item_bids =
              minsert i _ s.item_bids from rfl,
            mfind?_minsert_ne _ _ hj]
          exact hL
  | opupdate c i nn nd =>
    show StInv (update_listing s c i nn nd).2
    rcases update_cases s c i nn nd with ⟨heq, -⟩ | ⟨it, hf, ho, ha, heq⟩
    · rw [heq]; exact ⟨hsi, hsb, hsl, hit⟩
    · rw [heq]
      obtain ⟨hid, L0, hL0, hLI⟩ := hit i it hf
      refine ⟨sortedKeys_minsert i _ hsi, hsb, hsl, ?_⟩
      intro j jt hfj
      by_cases hj : j = i
      · subst hj
        rw [show (updSuccState s j nn nd it).items =
            minsert j ⟨it.id, it.owner, nn.getD it.name, nd.getD it.description, it.current_highest_bid, it.highest_bidder, it.active, it.new_owner⟩ s.items from rfl,
          mfind?_minsert_self] at hfj
        cases hfj
        exact ⟨hid, L0, hL0, hLI⟩
      · rw [show (updSuccState s i nn nd it).items =
            minsert i _ s.items from rfl,
          mfind?_minsert_ne _ _ hj] at hfj
        exact hit j jt hfj
  | opstop c i =>
    show StInv (stop_listing s c i).2
    rcases stop_cases s c i with ⟨heq, -⟩ | ⟨it, hf, ho, ha, heq⟩
    · rw [heq]; exact ⟨hsi, hsb, hsl, hit⟩
    · rw [heq]
      obtain ⟨hid, L0, hL0, hLI⟩ := hit i it hf
      refine ⟨sortedKeys_minsert i _ hsi, hsb, hsl, ?_⟩
      intro j jt hfj
      by_cases hj : j = i
      · subst hj
        rw [show (stopSuccState s j it).items =
            minsert j ⟨it.id, it.owner, it.name, it.description, it.current_highest_bid, it.highest_bidder, false, it.highest_bidder⟩ s.items from rfl,
          mfind?_minsert_self] at hfj
        cases hfj
        exact ⟨hid, L0, hL0, hLI⟩
      · rw [show (stopSuccState s i it).items =
            minsert i _ s.items from rfl,
          mfind?_minsert_ne _ _ hj] at hfj
        exact hit j jt hfj

theorem inv_runOps (ops : List Op) (s : CanisterState) (hs : StInv s) :
    StInv (runOps s ops) := by
  induction ops generalizing s with
  | nil => exact hs
  | cons op rest ih => exact ih (stepOp s op) (inv_step s op hs)

theorem reachable_inv {s : CanisterState} (h : Reachable s) : StInv s := by
  obtain ⟨ops, hops⟩ := h
  rw [← hops]
  exact inv_runOps ops initialState inv_initialState

theorem bid_error_snd {s : CanisterState} {c : Principal} {i a : Nat} {e : String}
    (h : (bid_for_item s c i a).1 = Except.error e) :
    (bid_for_item s c i a).2 = s := by
  rcases bid_cases s c i a with ⟨heq, -⟩ | ⟨it, -, -, -, -, heq⟩
  · exact heq
  · rw [heq] at h; simp at h

theorem update_error_snd {s : CanisterState} {c : Principal} {i : Nat}
    {nn nd : Option String} {e : String}
    (h : (update_listing s c i nn nd).1 = Except.error e) :
    (update_listing s c i nn nd).2 = s := by
  rcases update_cases s c i nn nd with ⟨heq, -⟩ | ⟨it, -, -, -, heq⟩
  · exact heq
  · rw [heq] at h; simp at h

theorem stop_error_snd {s : CanisterState} {c : Principal} {i : Nat} {e : String}
    (h : (stop_listing s c i).1 = Except.error e) :
    (stop_listing s c i).2 = s := by
  rcases stop_cases s c i with ⟨heq, -⟩ | ⟨it, -, -, -, heq⟩
  · exact heq
  · rw [heq] at h; simp at h

theorem histInv_initial (i : Nat) : HistInvAt initialState i [] := by
  simp [HistInvAt, initialState, mfind?]

theorem histInv_step (s : CanisterState) (i : Nat) (acc : List Bid) (op : Op)
    (h : HistInvAt s i acc) : HistInvAt (stepOp s op) i (accStep i acc s op) := by
  cases op with
  | opupgrade => rw [stepOp_upgrade]; exact h
  | oplist c nm ds =>
    show HistInvAt (list_item s c nm ds).2 i _
    by_cases hi : s.next_item_id = i
    · rw [show accStep i acc s (Op.oplist c nm ds) = [] by simp [accStep, hi]]
      rw [HistInvAt, show (list_item s c nm ds).2.items =
          minsert s.next_item_id
            ⟨s.next_item_id, c, nm, ds, 0, none, true, none⟩ s.items from rfl,
        hi, mfind?_minsert_self]
      simp [IncrAmts, lastAmt]
    · rw [show accStep i acc s (Op.oplist c nm ds) = acc by simp [accStep, hi]]
      rw [HistInvAt, show (list_item s c nm ds).2.items =
          minsert s.next_item_id
            ⟨s.next_item_id, c, nm, ds, 0, none, true, none⟩ s.items from rfl,
        mfind?_minsert_ne _ _ (fun hc => hi hc.symm)]
      exact h
  | opupdate c j nn nd =>
    show HistInvAt (update_listing s c j nn nd).2 i _
    rw [show accStep i acc s (Op.opupdate c j nn nd) = acc from rfl]
    rcases update_cases s c j nn nd with ⟨heq, -⟩ | ⟨it, hf, ho, ha, heq⟩
    · rw [heq]; exact h
    · rw [heq]
      by_cases hj : j = i
      · subst hj
        rw [HistInvAt] at h ⊢
        rw [hf] at h
        rw [show (updSuccState s j nn nd it).items =
            minsert j ⟨it.id, it.owner, nn.getD it.name, nd.getD it.description,
              it.current_highest_bid, it.highest_bidder, it.active,
              it.new_owner⟩ s.items from rfl,
          mfind?_minsert_self]
        exact h
      · rw [HistInvAt, show (updSuccState s j nn nd it).items =
            minsert j _ s.items from rfl, mfind?_minsert_ne _ _
              (fun hc => hj hc.symm)]
        exact h
  | opstop c j =>
    show HistInvAt (stop_listing s c j).2 i _
    rw [show accStep i acc s (Op.opstop c j) = acc from rfl]
    rcases stop_cases s c j with ⟨heq, -⟩ | ⟨it, hf, ho, ha, heq⟩
    · rw [heq]; exact h
    · rw [heq]
      by_cases hj : j = i
      · subst hj
        rw [HistInvAt] at h ⊢
        rw [hf] at h
        rw [show (stopSuccState s j it).items =
            minsert j ⟨it.id, it.owner, it.name, it.description,
              it.current_highest_bid, it.highest_bidder, false,
              it.highest_bidder⟩ s.items from rfl,
          mfind?_minsert_self]
        exact h
      · rw [HistInvAt, show (stopSuccState s j it).items =
            minsert j _ s.items from rfl, mfind?_minsert_ne _ _
              (fun hc => hj hc.symm)]
        exact h
  | opbid c j a =>
    show HistInvAt (bid_for_item s c j a).2 i _
    rcases bid_cases s c j a with ⟨heq, e, herr⟩ | ⟨it, hf, ha, ho, hb, hok⟩
    · rw [show accStep i acc s (Op.opbid c j a) = acc by
        simp [accStep, herr]]
      rw [heq]; exact h
    · have hfst : (bid_for_item s c j a).1 = Except.ok bidOkMsg := by
        rw [hok]
      have hsnd : (bid_for_item s c j a).2 = bidSuccState s c j a it := by
        rw [hok]
      rw [hsnd]
      by_cases hj : j = i
      · subst hj
        rw [show accStep j acc s (Op.opbid c j a) =
            acc ++ [{ bidder := c, amount := a }] by simp [accStep, hfst]]
        rw [HistInvAt] at h ⊢
        rw [hf] at h
        obtain ⟨hinc, hchb, hhb⟩ := h
        rw [show (bidSuccState s c j a it).items =
            minsert j ⟨it.id, it.owner, it.name, it.description, a, some c,
              it.active, it.new_owner⟩ s.items from rfl,
          mfind?_minsert_self]
        refine ⟨?_, ?_, ?_⟩
        · rw [IncrAmts, List.chain'_append]
          refine ⟨hinc, List.chain'_singleton _, ?_⟩
          intro x hx y hy
          simp only [List.head?_cons, Option.mem_def, Option.some.injEq] at hy
          subst hy
          have hxa : x.amount = lastAmt acc := by
            rw [lastAmt, hx]; rfl
          simp only [hxa, ← hchb]
          exact hb
        · simp [lastAmt, List.getLast?_concat]
        · simp [List.getLast?_concat]
      · rw [show accStep i acc s (Op.opbid c j a) = acc by
          simp [accStep, hfst, hj]]
        rw [HistInvAt, show (bidSuccState s c j a it).items =
            minsert j _ s.items from rfl, mfind?_minsert_ne _ _
              (fun hc => hj hc.symm)]
        exact h

theorem histInv_run (i : Nat) (ops : List Op) (s : CanisterState)
    (acc : List Bid) (h : HistInvAt s i acc) :
    HistInvAt (runOps s ops) i (accAfter i acc s ops) := by
  induction ops generalizing s acc with
  | nil => exact h
  | cons op rest ih => exact ih (stepOp s op) _ (histInv_step s i acc op h)

theorem histInv_trace (i : Nat) (ops : List Op) :
    HistInvAt (runOps initialState ops) i (acceptedOn i ops) :=
  histInv_run i ops initialState [] (histInv_initial i)

theorem foldl_max_le {l : List Bid} {B m : Nat} (hm : m ≤ B)
    (h : ∀ b ∈ l, b.amount ≤ B) :
    l.foldl (fun m b => max m b.amount) m ≤ B := by
  induction l generalizing m with
  | nil => exact hm
  | cons x t ih =>
    simp only [List.foldl_cons]
    exact ih (Nat.max_le.mpr ⟨hm, h x (by simp)⟩) (fun b hb => h b (by simp [hb]))

theorem le_foldl_max_of_mem {l : List Bid} {b : Bid} (hb : b ∈ l) (m : Nat) :
    b.amount ≤ l.foldl (fun m b => max m b.amount) m := by
  induction l generalizing m with
  | nil => simp at hb
  | cons x t ih =>
    rcases List.mem_cons.mp hb with hb | hb
    · subst hb
      simp only [List.foldl_cons]
      have hinit : ∀ (t' : List Bid) (m' : Nat),
          m' ≤ t'.foldl (fun m b => max m b.amount) m' := by
        intro t'
        induction t' with
        | nil => intro m'; exact le_refl m'
        | cons y u ihu =>
          intro m'
          simp only [List.foldl_cons]
          exact le_trans (Nat.le_max_left m' y.amount) (ihu (max m' y.amount))
      exact le_trans (Nat.le_max_right m b.amount) (hinit t (max m b.amount))
    · simpa using ih hb (max m x.amount)

theorem incr_le_lastAmt {l : List Bid} (h : IncrAmts l) :
    ∀ b ∈ l, b.amount ≤ lastAmt l := by
  induction l with
  | nil => intro b hb; simp at hb
  | cons x t ih =>
    intro b hb
    cases t with
    | nil =>
      rcases List.mem_cons.mp hb with hb | hb
      · subst hb; simp [lastAmt]
      · simp at hb
    | cons y u =>
      have hxy : x.amount < y.amount ∧ IncrAmts (y :: u) := by
        rw [IncrAmts, List.chain'_cons] at h
        exact h
      have hlast : lastAmt (x :: y :: u) = lastAmt (y :: u) := by
        rw [lastAmt, lastAmt, List.getLast?_cons_cons]
      rcases List.mem_cons.mp hb with hb | hb
      · subst hb
        rw [hlast]
        exact le_trans (le_of_lt hxy.1) (ih hxy.2 y (by simp))
      · rw [hlast]
        exact ih hxy.2 b hb

theorem maxAmt_eq_lastAmt {l : List Bid} (h : IncrAmts l) :
    maxAmt l = lastAmt l := by
  cases l with
  | nil => rfl
  | cons x t =>
    refine le_antisymm ?_ ?_
    · exact foldl_max_le (Nat.zero_le _) (incr_le_lastAmt h)
    · cases hg : (x :: t).getLast? with
      | none => simp at hg
      | some b =>
        have hb : b ∈ x :: t := List.mem_of_getLast?_eq_some hg
        rw [lastAmt, hg]
        exact le_foldl_max_of_mem hb 0

theorem foldl_maxKey_shift {α : Type} (key : α → Nat) (l : List α) :
    ∀ b : Nat, l.foldl (fun m x => max m (key x)) b = max b (listMaxKey key l) := by
  induction l with
  | nil => intro b; simp [listMaxKey]
  | cons x t ih =>
    intro b
    simp only [List.foldl_cons, listMaxKey] at ih ⊢
    rw [ih (max b (key x)), ih (max 0 (key x))]
    simp [Nat.max_assoc, Nat.zero_max]

theorem listMaxKey_cons {α : Type} (key : α → Nat) (x : α) (t : List α) :
    listMaxKey key (x :: t) = max (key x) (listMaxKey key t) := by
  rw [listMaxKey, List.foldl_cons, foldl_maxKey_shift, Nat.zero_max]

theorem listMaxKey_lt {α : Type} {key : α → Nat} {l : List α} {B : Nat}
    (hB : 0 < B) (h : ∀ x ∈ l, key x < B) : listMaxKey key l < B := by
  induction l with
  | nil => simpa [listMaxKey] using hB
  | cons x t ih =>
    rw [listMaxKey_cons]
    exact Nat.max_lt.mpr ⟨h x (by simp), ih (fun y hy => h y (by simp [hy]))⟩

theorem le_listMaxKey_of_mem {α : Type} {key : α → Nat} {x : α} {l : List α}
    (h : x ∈ l) : key x ≤ listMaxKey key l := by
  induction l with
  | nil => simp at h
  | cons y t ih =>
    rw [listMaxKey_cons]
    rcases List.mem_cons.mp h with h | h
    · subst h; exact Nat.le_max_left _ _
    · exact le_trans (ih h) (Nat.le_max_right _ _)

theorem maxByKeyLast_spec {α : Type} (key : α → Nat) :
    ∀ (xs : List α) (x : α),
      (x :: xs).reverse.find?
          (fun a => decide (listMaxKey key (x :: xs) ≤ key a)) =
        some (xs.foldl (fun acc y => if key acc ≤ key y then y else acc) x) := by
  intro xs
  induction xs with
  | nil =>
    intro x
    simp [listMaxKey_cons, listMaxKey, List.find?]
  | cons y ys ih =>
    intro x
    rw [List.foldl_cons]
    set q := if key x ≤ key y then y else x with hq
    have hkq : key q = max (key x) (key y) := by
      rw [hq]
      by_cases hxy : key x ≤ key y
      · simp only [if_pos hxy]; omega
      · simp only [if_neg hxy]; omega
    have hM : listMaxKey key (x :: y :: ys) = listMaxKey key (q :: ys) := by
      rw [listMaxKey_cons, listMaxKey_cons, listMaxKey_cons, hkq]
      omega
    have ihq := ih q
    rw [← hM] at ihq
    rw [← ihq]
    rw [show (x :: y :: ys).reverse = ys.reverse ++ [y, x] by simp,
      show (q :: ys).reverse = ys.reverse ++ [q] by simp]
    rw [List.find?_append, List.find?_append]
    cases hf : ys.reverse.find?
        (fun a => decide (listMaxKey key (x :: y :: ys) ≤ key a)) with
    | some z => simp
    | none =>
      simp only [Option.none_or]
      have hlt : ∀ a ∈ ys, key a < listMaxKey key (x :: y :: ys) := by
        intro a ha
        have hna := List.find?_eq_none.mp hf a (List.mem_reverse.mpr ha)
        simp only [decide_eq_true_eq] at hna
        omega
      have hKle : listMaxKey key ys ≤ max (key x) (key y) := by
        by_contra hK
        have h1 : 0 < listMaxKey key (x :: y :: ys) := by
          rw [listMaxKey_cons, listMaxKey_cons]
          omega
        have h2 := listMaxKey_lt h1 hlt
        rw [listMaxKey_cons, listMaxKey_cons] at h2
        omega
      by_cases hxy : key x ≤ key y
      · have hMq : listMaxKey key (x :: y :: ys) = key y := by
          rw [listMaxKey_cons, listMaxKey_cons]
          omega
        rw [hq, if_pos hxy]
        simp [List.find?, hMq]
      · have hMq : listMaxKey key (x :: y :: ys) = key x := by
          rw [listMaxKey_cons, listMaxKey_cons]
          omega
        rw [hq, if_neg hxy]
        simp [List.find?, hMq, hxy]

theorem mostBids_step (s : CanisterState) (acc : Option Item × Nat) (it : Item) :
    (match mfind? s.item_bids it.id with
      | some bids => if msize bids > acc.2 then (some it, msize bids) else acc
      | none => acc)
    = if acc.2 < cntOf s it then (some it, cntOf s it) else acc := by
  cases hfind : mfind? s.item_bids it.id with
  | none => simp [cntOf, hfind, msize]
  | some bids => simp [cntOf, hfind, gt_iff_lt]

theorem foldl_congr_fun {α β : Type} (f g : β → α → β) (l : List α) (b : β)
    (h : ∀ acc x, f acc x = g acc x) : l.foldl f b = l.foldl g b := by
  induction l generalizing b with
  | nil => rfl
  | cons x t ih => rw [List.foldl_cons, List.foldl_cons, h, ih]

theorem mostBids_fold (s : CanisterState) :
    ∀ (l : List Item) (acc : Option Item × Nat),
      l.foldl (fun acc it =>
          if acc.2 < cntOf s it then (some it, cntOf s it) else acc) acc =
        if acc.2 < listMaxKey (cntOf s) l then
          (l.find? (fun it => decide (listMaxKey (cntOf s) l ≤ cntOf s it)),
            listMaxKey (cntOf s) l)
        else acc := by
  intro l
  induction l with
  | nil => intro acc; simp [listMaxKey]
  | cons it l ih =>
    intro acc
    rw [List.foldl_cons, listMaxKey_cons]
    by_cases hA : acc.2 < cntOf s it
    · rw [if_pos hA, ih]
      simp only []
      by_cases hB : cntOf s it < listMaxKey (cntOf s) l
      · have hM : max (cntOf s it) (listMaxKey (cntOf s) l)
            = listMaxKey (cntOf s) l := by omega
        rw [hM, if_pos (show (some it, cntOf s it).2 < listMaxKey (cntOf s) l from hB),
          if_pos (show acc.2 < listMaxKey (cntOf s) l by omega),
          List.find?_cons_of_neg _ (by simp; omega)]
      · have hM : max (cntOf s it) (listMaxKey (cntOf s) l) = cntOf s it := by omega
        rw [hM, if_neg (show ¬ (some it, cntOf s it).2 < listMaxKey (cntOf s) l from hB),
          if_pos (show acc.2 < cntOf s it from hA),
          List.find?_cons_of_pos _ (by simp)]
    · rw [if_neg hA, ih]
      have hcnt : cntOf s it ≤ acc.2 := by omega
      by_cases hC : acc.2 < listMaxKey (cntOf s) l
      · have hM : max (cntOf s it) (listMaxKey (cntOf s) l)
            = listMaxKey (cntOf s) l := by omega
        rw [hM, if_pos hC, if_pos hC,
          List.find?_cons_of_neg _ (by simp; omega)]
      · rw [if_neg hC, if_neg (show ¬ acc.2 <
          max (cntOf s it) (listMaxKey (cntOf s) l) by omega)]

theorem mostBids_eq (s : CanisterState) :
    get_item_with_most_bids s =
      if 0 < listMaxKey (cntOf s) (mvalues s.items) then
        (mvalues s.items).find?
          (fun it => decide (listMaxKey (cntOf s) (mvalues s.items) ≤ cntOf s it))
      else none := by
  rw [get_item_with_most_bids,
    foldl_congr_fun _ _ (mvalues s.items) ((none : Option Item), 0)
      (fun acc it => mostBids_step s acc it),
    mostBids_fold]
  by_cases h : (0 : Nat) < listMaxKey (cntOf s) (mvalues s.items)
  · rw [if_pos (show ((none : Option Item), 0).2 < listMaxKey (cntOf s) (mvalues s.items) from h),
      if_pos h]
  · rw [if_neg (show ¬ ((none : Option Item), 0).2 < listMaxKey (cntOf s) (mvalues s.items) from h),
      if_neg h]

theorem bid_snd_next (s : CanisterState) (c : Principal) (i a : Nat) :
    (bid_for_item s c i a).2.next_item_id = s.next_item_id := by
  rcases bid_cases s c i a with ⟨heq, -⟩ | ⟨it, -, -, -, -, heq⟩
  · rw [heq]
  · rw [heq]; rfl

theorem update_snd_next (s : CanisterState) (c : Principal) (i : Nat)
    (nn nd : Option String) :
    (update_listing s c i nn nd).2.next_item_id = s.next_item_id := by
  rcases update_cases s c i nn nd with ⟨heq, -⟩ | ⟨it, -, -, -, heq⟩
  · rw [heq]
  · rw [heq]; rfl

theorem stop_snd_next (s : CanisterState) (c : Principal) (i : Nat) :
    (stop_listing s c i).2.next_item_id = s.next_item_id := by
  rcases stop_cases s c i with ⟨heq, -⟩ | ⟨it, -, -, -, heq⟩
  · rw [heq]
  · rw [heq]; rfl

theorem U64MOD_pos : 0 < U64MOD := by norm_num [U64MOD]

theorem runOps_next (ops : List Op) :
    ∀ s : CanisterState, s.next_item_id < U64MOD →
      (runOps s ops).next_item_id =
        (s.next_item_id + listCalls ops) % U64MOD := by
  induction ops with
  | nil =>
    intro s h
    simp [runOps, listCalls, Nat.mod_eq_of_lt h]
  | cons op rest ih =>
    intro s h
    rw [runOps_cons]
    cases op with
    | oplist c nm ds =>
      have hn : (stepOp s (Op.oplist c nm ds)).next_item_id
          = (s.next_item_id + 1) % U64MOD := rfl
      rw [ih _ (by rw [hn]; exact Nat.mod_lt _ U64MOD_pos), hn,
        Nat.mod_add_mod,
        show listCalls (Op.oplist c nm ds :: rest) = listCalls rest + 1 from rfl]
      rw [show s.next_item_id + 1 + listCalls rest
          = s.next_item_id + (listCalls rest + 1) by omega]
    | opbid c i a =>
      rw [ih _ (by rw [show stepOp s (Op.opbid c i a) = (bid_for_item s c i a).2
          from rfl, bid_snd_next]; exact h)]
      rw [show stepOp s (Op.opbid c i a) = (bid_for_item s c i a).2 from rfl,
        bid_snd_next,
        show listCalls (Op.opbid c i a :: rest) = listCalls rest from rfl]
    | opupdate c i nn nd =>
      rw [ih _ (by rw [show stepOp s (Op.opupdate c i nn nd)
          = (update_listing s c i nn nd).2 from rfl, update_snd_next]; exact h)]
      rw [show stepOp s (Op.opupdate c i nn nd)
          = (update_listing s c i nn nd).2 from rfl, update_snd_next,
        show listCalls (Op.opupdate c i nn nd :: rest) = listCalls rest from rfl]
    | opstop c i =>
      rw [ih _ (by rw [show stepOp s (Op.opstop c i) = (stop_listing s c i).2
          from rfl, stop_snd_next]; exact h)]
      rw [show stepOp s (Op.opstop c i) = (stop_listing s c i).2 from rfl,
        stop_snd_next,
        show listCalls (Op.opstop c i :: rest) = listCalls rest from rfl]
    | opupgrade =>
      rw [ih _ (by rw [stepOp_upgrade]; exact h), stepOp_upgrade,
        show listCalls (Op.opupgrade :: rest) = listCalls rest from rfl]

theorem returnedIds_form (ops : List Op) :
    ∀ s : CanisterState, s.next_item_id < U64MOD →
      returnedIds s ops =
        (List.range (listCalls ops)).map
          (fun j => (s.next_item_id + j) % U64MOD) := by
  induction ops with
  | nil => intro s h; simp [returnedIds, listCalls]
  | cons op rest ih =>
    intro s h
    cases op with
    | oplist c nm ds =>
      have hn : (stepOp s (Op.oplist c nm ds)).next_item_id
          = (s.next_item_id + 1) % U64MOD := rfl
      rw [show returnedIds s (Op.oplist c nm ds :: rest)
          = (list_item s c nm ds).1 :: returnedIds (stepOp s (Op.oplist c nm ds)) rest
          from rfl,
        ih _ (by rw [hn]; exact Nat.mod_lt _ U64MOD_pos), hn,
        list_item_fst,
        show listCalls (Op.oplist c nm ds :: rest) = listCalls rest + 1 from rfl,
        List.range_succ_eq_map, List.map_cons, List.map_map]
      refine congrArg₂ _ ?_ ?_
      · rw [Nat.add_zero, Nat.mod_eq_of_lt h]
      · refine List.map_congr_left (fun j hj => ?_)
        simp only [Function.comp_apply, Nat.mod_add_mod, Nat.succ_eq_add_one]
        rw [show s.next_item_id + 1 + j = s.next_item_id + (j + 1) by omega]
    | opbid c i a =>
      rw [show returnedIds s (Op.opbid c i a :: rest)
          = returnedIds (stepOp s (Op.opbid c i a)) rest from rfl,
        ih _ (by rw [show stepOp s (Op.opbid c i a) = (bid_for_item s c i a).2
          from rfl, bid_snd_next]; exact h)]
      rw [show stepOp s (Op.opbid c i a) = (bid_for_item s c i a).2 from rfl,
        bid_snd_next, show listCalls (Op.opbid c i a :: rest) = listCalls rest
          from rfl]
    | opupdate c i nn nd =>
      rw [show returnedIds s (Op.opupdate c i nn nd :: rest)
          = returnedIds (stepOp s (Op.opupdate c i nn nd)) rest from rfl,
        ih _ (by rw [show stepOp s (Op.opupdate c i nn nd)
          = (update_listing s c i nn nd).2 from rfl, update_snd_next]; exact h)]
      rw [show stepOp s (Op.opupdate c i nn nd)
          = (update_listing s c i nn nd).2 from rfl, update_snd_next,
        show listCalls (Op.opupdate c i nn nd :: rest) = listCalls rest from rfl]
    | opstop c i =>
      rw [show returnedIds s (Op.opstop c i :: rest)
          = returnedIds (stepOp s (Op.opstop c i)) rest from rfl,
        ih _ (by rw [show stepOp s (Op.opstop c i) = (stop_listing s c i).2
          from rfl, stop_snd_next]; exact h)]
      rw [show stepOp s (Op.opstop c i) = (stop_listing s c i).2 from rfl,
        stop_snd_next,
        show listCalls (Op.opstop c i :: rest) = listCalls rest from rfl]
    | opupgrade =>
      rw [show returnedIds s (Op.opupgrade :: rest)
          = returnedIds (stepOp s Op.opupgrade) rest from rfl,
        ih _ (by rw [stepOp_upgrade]; exact h), stepOp_upgrade,
        show listCalls (Op.opupgrade :: rest) = listCalls rest from rfl]

theorem listCalls_replicate (n : Nat) (c : Principal) (nm ds : String) :
    listCalls (List.replicate n (Op.oplist c nm ds)) = n := by
  induction n with
  | zero => rfl
  | succ k ih => simp [List.replicate, listCalls, ih]

theorem sortedKeys_nodup {α : Type} {l : Mmap α} (h : SortedKeys l) :
    (l.map Prod.fst).Nodup := by
  rw [List.Nodup, List.pairwise_map]
  exact h.imp (fun hlt => Nat.ne_of_lt hlt)

/-- C2: whenever `bid_for_item`, `update_listing` or `stop_listing`
returns an error — whatever the error — every component of the aggregate
(the items map, the bid-ledger map, and the `next_item_id` counter) is
exactly as before the call, and hence so is the whole state: in the
source every validation's early `return Err` occurs before the first
write (`items.insert`, the ledger upsert, or an in-place field
assignment), so no partial mutation is ever observable by a later
operation or query. -/
theorem error_calls_leave_state_unchanged (s : CanisterState) (c : Principal)
    (i a : Nat) (nn nd : Option String) :
    (∀ e, (bid_for_item s c i a).1 = Except.error e →
      (bid_for_item s c i a).2.items = s.items ∧
      (bid_for_item s c i a).2.item_bids = s.item_bids ∧
      (bid_for_item s c i a).2.next_item_id = s.next_item_id ∧
      (bid_for_item s c i a).2 = s) ∧
    (∀ e, (update_listing s c i nn nd).1 = Except.error e →
      (update_listing s c i nn nd).2.items = s.items ∧
      (update_listing s c i nn nd).2.item_bids = s.item_bids ∧
      (update_listing s c i nn nd).2.next_item_id = s.next_item_id ∧
      (update_listing s c i nn nd).2 = s) ∧
    (∀ e, (stop_listing s c i).1 = Except.error e →
      (stop_listing s c i).2.items = s.items ∧
      (stop_listing s c i).2.item_bids = s.item_bids ∧
      (stop_listing s c i).2.next_item_id = s.next_item_id ∧
      (stop_listing s c i).2 = s) := by
  refine ⟨fun e h => ?_, fun e h => ?_, fun e h => ?_⟩
  · have h2 := bid_error_snd h
    exact ⟨by rw [h2], by rw [h2], by rw [h2], h2⟩
  · have h2 := update_error_snd h
    exact ⟨by rw [h2], by rw [h2], by rw [h2], h2⟩
  · have h2 := stop_error_snd h
    exact ⟨by rw [h2], by rw [h2], by rw [h2], h2⟩

/-- Witness for C2: the ten distinct error paths of the three update
calls — `NotFound`, `InactiveAuction`, `SelfBid` and `BidTooLow` for
`bid_for_item`, `NotFound`, `NotOwner` and `InactiveAuction` for
`update_listing`, and `NotFound`, `NotOwner` and `AlreadyStopped` for
`stop_listing` — each exercised on a non-trivial aggregate and each
leaving that aggregate unchanged. -/
theorem error_calls_leave_state_unchanged_witness :
    (bid_for_item twoBidState 2 9 5).2 = twoBidState ∧
    (bid_for_item stoppedState 8 0 10).2 = stoppedState ∧
    (bid_for_item twoBidState 1 0 99).2 = twoBidState ∧
    (bid_for_item twoBidState 2 0 15).2 = twoBidState ∧
    (update_listing twoBidState 1 9 (some "x") none).2 = twoBidState ∧
    (update_listing twoBidState 8 0 (some "x") none).2 = twoBidState ∧
    (update_listing stoppedState 7 0 none (some "y")).2 = stoppedState ∧
    (stop_listing twoBidState 1 9).2 = twoBidState ∧
    (stop_listing twoBidState 8 0).2 = twoBidState ∧
    (stop_listing stoppedState 7 0).2 = stoppedState :=
  ⟨((error_calls_leave_state_unchanged twoBidState 2 9 5 none none).1
      notFoundMsg (by rfl)).2.2.2,
   ((error_calls_leave_state_unchanged stoppedState 8 0 10 none none).1
      inactiveBidMsg (by rfl)).2.2.2,
   ((error_calls_leave_state_unchanged twoBidState 1 0 99 none none).1
      selfBidMsg (by rfl)).2.2.2,
   ((error_calls_leave_state_unchanged twoBidState 2 0 15 none none).1
      (bidTooLowMsg 15 15) (by rfl)).2.2.2,
   ((error_calls_leave_state_unchanged twoBidState 1 9 0 (some "x") none).2.1
      notFoundMsg (by rfl)).2.2.2,
   ((error_calls_leave_state_unchanged twoBidState 8 0 0 (some "x") none).2.1
      notOwnerUpdateMsg (by rfl)).2.2.2,
   ((error_calls_leave_state_unchanged stoppedState 7 0 0 none (some "y")).2.1
      inactiveUpdateMsg (by rfl)).2.2.2,
   ((error_calls_leave_state_unchanged twoBidState 1 9 0 none none).2.2
      notFoundMsg (by rfl)).2.2.2,
   ((error_calls_leave_state_unchanged twoBidState 8 0 0 none none).2.2
      notOwnerStopMsg (by rfl)).2.2.2,
   ((error_calls_leave_state_unchanged stoppedState 7 0 0 none none).2.2
      alreadyStoppedMsg (by rfl)).2.2.2⟩

/-- C3: `bid_for_item` checks existence, activity, non-self-bid, and
strict bid increase in that order, failing with the first violated
precondition's error (an equal amount is rejected); when all hold it
succeeds, sets `current_highest_bid := amount` and
`highest_bidder := caller`, and upserts the caller's ledger entry,
leaving other bidders' entries and the id counter unchanged. -/
theorem bid_precondition_order (s : CanisterState) (c : Principal) (i a : Nat) :
    (mfind? s.items i = none →
      bid_for_item s c i a = (Except.error notFoundMsg, s)) ∧
    (∀ it, mfind? s.items i = some it → it.active = false →
      bid_for_item s c i a = (Except.error inactiveBidMsg, s)) ∧
    (∀ it, mfind? s.items i = some it → it.active = true → it.owner = c →
      bid_for_item s c i a = (Except.error selfBidMsg, s)) ∧
    (∀ it, mfind? s.items i = some it → it.active = true → it.owner ≠ c →
      a ≤ it.current_highest_bid →
      bid_for_item s c i a =
        (Except.error (bidTooLowMsg a it.current_highest_bid), s)) ∧
    (∀ it, mfind? s.items i = some it → it.active = true → it.owner ≠ c →
      it.current_highest_bid < a →
      (bid_for_item s c i a).1 = Except.ok bidOkMsg ∧
      mfind? (bid_for_item s c i a).2.items i =
        some { it with current_highest_bid := a, highest_bidder := some c } ∧
      (∃ L, mfind? (bid_for_item s c i a).2.item_bids i = some L ∧
        mfind? L c = some { bidder := c, amount := a } ∧
        ∀ c2, c2 ≠ c →
          mfind? L c2 = mfind? ((mfind? s.item_bids i).getD []) c2) ∧
      (bid_for_item s c i a).2.next_item_id = s.next_item_id) := by
  refine ⟨fun hf => bid_not_found hf,
    fun it hf ha => bid_inactive hf ha,
    fun it hf ha ho => bid_self hf ha ho,
    fun it hf ha ho hb => bid_too_low hf ha ho hb,
    fun it hf ha ho hb => ?_⟩
  rw [bid_success hf ha ho hb]
  exact ⟨rfl, mfind?_minsert_self _ _ _,
    ⟨minsert c { bidder := c, amount := a } ((mfind? s.item_bids i).getD []),
      mfind?_minsert_self _ _ _, mfind?_minsert_self _ _ _,
      fun c2 hc2 => mfind?_minsert_ne _ _ hc2⟩, rfl⟩

/-- Witness for C3: all five branches exercised on the one-item scenario
state. -/
theorem bid_precondition_order_witness :
    bid_for_item listedState 8 5 10 = (Except.error notFoundMsg, listedState) ∧
    bid_for_item stoppedState 8 0 10 =
      (Except.error inactiveBidMsg, stoppedState) ∧
    bid_for_item listedState 7 0 10 = (Except.error selfBidMsg, listedState) ∧
    bid_for_item listedState 8 0 0 =
      (Except.error (bidTooLowMsg 0 0), listedState) ∧
    (bid_for_item listedState 8 0 10).1 = Except.ok bidOkMsg := by
  refine ⟨(bid_precondition_order listedState 8 5 10).1 (by rfl),
    (bid_precondition_order stoppedState 8 0 10).2.1
      ⟨0, 7, "vase", "blue", 0, none, false, none⟩ (by rfl) (by rfl),
    (bid_precondition_order listedState 7 0 10).2.2.1
      ⟨0, 7, "vase", "blue", 0, none, true, none⟩ (by rfl) (by rfl) (by rfl),
    (bid_precondition_order listedState 8 0 0).2.2.2.1
      ⟨0, 7, "vase", "blue", 0, none, true, none⟩ (by rfl) (by rfl)
      (by decide) (by decide),
    ((bid_precondition_order listedState 8 0 10).2.2.2.2
      ⟨0, 7, "vase", "blue", 0, none, true, none⟩ (by rfl) (by rfl)
      (by decide) (by decide)).1⟩

/-- C4: decoding the snapshot produced by the pre-shutdown save yields a
state equal to the original: `restore(save(state)) = state` for every
aggregate state. -/
theorem save_restore_roundtrip (s : CanisterState) :
    stable_restore (stable_save s) = Except.ok s :=
  stable_roundtrip s

/-- C1: in every reachable state, an item's `current_highest_bid` is the
maximum amount among all bids `bid_for_item` accepted for that item (`0`
when none), its `highest_bidder` is the submitter of that maximum
accepted bid (`none` when none, and the maximum accepted bid is the last
accepted one), and one successful `bid_for_item` never decreases
`current_highest_bid`. -/
theorem chb_is_max_accepted :
    (∀ (ops : List Op) (i : Nat) (it : Item),
      mfind? (runOps initialState ops).items i = some it →
        it.current_highest_bid = maxAmt (acceptedOn i ops) ∧
        it.highest_bidder = ((acceptedOn i ops).getLast?).map Bid.bidder ∧
        ∀ b, (acceptedOn i ops).getLast? = some b →
          b.amount = maxAmt (acceptedOn i ops)) ∧
    (∀ (s : CanisterState) (c : Principal) (i a : Nat) (r : String)
      (s' : CanisterState) (it it' : Item),
      bid_for_item s c i a = (Except.ok r, s') →
      mfind? s.items i = some it → mfind? s'.items i = some it' →
      it.current_highest_bid ≤ it'.current_highest_bid) := by
  constructor
  · intro ops i it hf
    have h := histInv_trace i ops
    rw [HistInvAt, hf] at h
    obtain ⟨hinc, hchb, hhb⟩ := h
    have hmax := maxAmt_eq_lastAmt hinc
    refine ⟨by rw [hchb, hmax], hhb, ?_⟩
    intro b hb
    rw [hmax, lastAmt, hb]
    rfl
  · intro s c i a r s' it it' hbid hf hf'
    rcases bid_cases s c i a with ⟨-, e, herr⟩ | ⟨it0, hf0, ha0, ho0, hb0, heq⟩
    · rw [hbid] at herr; simp at herr
    · rw [hbid] at heq
      have hs' : s' = bidSuccState s c i a it0 := congrArg Prod.snd heq
      rw [hf] at hf0
      have hit0 : it0 = it := (Option.some.inj hf0).symm
      subst hit0
      rw [hs'] at hf'
      rw [show (bidSuccState s c i a it0).items =
          minsert i ⟨it0.id, it0.owner, it0.name, it0.description, a, some c,
            it0.active, it0.new_owner⟩ s.items from rfl,
        mfind?_minsert_self] at hf'
      have hit' : it' = ⟨it0.id, it0.owner, it0.name, it0.description, a,
          some c, it0.active, it0.new_owner⟩ := (Option.some.inj hf').symm
      rw [hit']
      exact le_of_lt hb0

/-- Witness for C1 on a two-bid trace: the final highest bid 15 is the
maximum accepted amount and bidder 3 submitted it; and the second bid did
not decrease the highest bid. -/
theorem chb_is_max_accepted_witness :
    (15 : Nat) = maxAmt (acceptedOn 0 twoBidOps) ∧
    (some 3 : Option Principal) =
      ((acceptedOn 0 twoBidOps).getLast?).map Bid.bidder ∧
    (10 : Nat) ≤ 15 := by
  have h1 := chb_is_max_accepted.1 twoBidOps 0
    ⟨0, 1, "vase", "blue", 15, some 3, true, none⟩ (by rfl)
  have h2 := chb_is_max_accepted.2 (runOps initialState (twoBidOps.take 2))
    3 0 15 bidOkMsg (runOps initialState twoBidOps)
    ⟨0, 1, "vase", "blue", 10, some 2, true, none⟩
    ⟨0, 1, "vase", "blue", 15, some 3, true, none⟩ (by rfl) (by rfl) (by rfl)
  exact ⟨h1.1, h1.2.1, h2⟩

/-- Counterexample to C5 as stated: with two sold items tied at
`current_highest_bid = 10` and item 0 first in iteration order, the query
returns item 1 — the LAST maximum encountered — not the first. -/
theorem most_expensive_sold_tie_counterexample :
    ((soldItems tiedSoldState).map Item.id = [0, 1]) ∧
    ((soldItems tiedSoldState).map Item.current_highest_bid = [10, 10]) ∧
    ((get_most_expensive_sold_item tiedSoldState).map Item.id = some 1) := by
  refine ⟨by rfl, by rfl, by rfl⟩

/-- C5 amended: the query returns an item of maximal
`current_highest_bid` among inactive items with a `new_owner` set
(`none` when there is none), and when several share that maximum it
returns the LAST maximum encountered in iteration order (Rust's
`max_by_key` keeps the last maximal element). -/
theorem most_expensive_sold_spec (s : CanisterState) :
    get_most_expensive_sold_item s =
      (soldItems s).reverse.find? (fun it =>
        decide (listMaxKey (fun x => x.current_highest_bid) (soldItems s) ≤
          it.current_highest_bid)) ∧
    (∀ it, get_most_expensive_sold_item s = some it →
      it ∈ soldItems s ∧
      it.current_highest_bid =
        listMaxKey (fun x => x.current_highest_bid) (soldItems s)) ∧
    (get_most_expensive_sold_item s = none ↔ soldItems s = []) := by
  have hq : get_most_expensive_sold_item s =
      maxByKeyLast (fun x => x.current_highest_bid) (soldItems s) := rfl
  have hmain : get_most_expensive_sold_item s =
      (soldItems s).reverse.find? (fun it =>
        decide (listMaxKey (fun x => x.current_highest_bid) (soldItems s) ≤
          it.current_highest_bid)) := by
    rw [hq]
    cases hsold : soldItems s with
    | nil => rfl
    | cons x xs =>
      rw [show maxByKeyLast (fun x => x.current_highest_bid) (x :: xs) =
          some (xs.foldl (fun acc y => if acc.current_highest_bid ≤
            y.current_highest_bid then y else acc) x) from rfl]
      exact (maxByKeyLast_spec (fun x => x.current_highest_bid) xs x).symm
  refine ⟨hmain, ?_, ?_⟩
  · intro it hit
    rw [hmain] at hit
    have hp := List.find?_some hit
    have hmem := List.mem_reverse.mp (List.mem_of_find?_eq_some hit)
    simp only [decide_eq_true_eq] at hp
    exact ⟨hmem, le_antisymm (le_listMaxKey_of_mem hmem) hp⟩
  · rw [hmain]
    constructor
    · intro hnone
      cases hsold : soldItems s with
      | nil => rfl
      | cons x xs =>
        rw [hsold] at hnone
        have hall : ∀ a ∈ x :: xs, a.current_highest_bid <
            listMaxKey (fun x => x.current_highest_bid) (x :: xs) := by
          intro a ha
          have hna := List.find?_eq_none.mp hnone a (List.mem_reverse.mpr ha)
          simp only [decide_eq_true_eq] at hna
          omega
        have h0 : 0 < listMaxKey (fun x => x.current_highest_bid) (x :: xs) :=
          lt_of_le_of_lt (Nat.zero_le _) (hall x (List.mem_cons_self x xs))
        exact absurd (listMaxKey_lt h0 hall) (lt_irrefl _)
    · intro hnil
      rw [hnil]
      rfl

/-- Witness for C5 amended: on the tied trace the returned item is a
member of the sold list with the maximal highest bid. -/
theorem most_expensive_sold_spec_witness :
    (⟨1, 1, "b", "y", 10, some 2, false, some 2⟩ : Item) ∈
      soldItems tiedSoldState ∧
    (⟨1, 1, "b", "y", 10, some 2, false, some 2⟩ : Item).current_highest_bid =
      listMaxKey (fun x => x.current_highest_bid) (soldItems tiedSoldState) :=
  (most_expensive_sold_spec tiedSoldState).2.1
    ⟨1, 1, "b", "y", 10, some 2, false, some 2⟩ (by rfl)

/-- Counterexample to C6 as stated: with exactly one item (which therefore
has the most ledger entries, zero) the query returns `none` rather than
that item. -/
theorem most_bids_zero_counterexample :
    mfind? oneItemNoBids.items 0 =
      some ⟨0, 5, "a", "b", 0, none, true, none⟩ ∧
    get_item_with_most_bids oneItemNoBids = none := by
  exact ⟨by rfl, by rfl⟩

/-- C6 amended: when some item has a non-empty bid ledger, the query
returns the first item in iteration (ascending id) order whose ledger
size is maximal; when every item has zero bids (or there are no items) it
returns `none` — an item with zero bids is never returned. -/
theorem most_bids_spec (s : CanisterState) :
    get_item_with_most_bids s =
      (if 0 < listMaxKey (cntOf s) (mvalues s.items) then
        (mvalues s.items).find? (fun it =>
          decide (listMaxKey (cntOf s) (mvalues s.items) ≤ cntOf s it))
      else none) ∧
    (∀ it, get_item_with_most_bids s = some it →
      it ∈ mvalues s.items ∧
      cntOf s it = listMaxKey (cntOf s) (mvalues s.items) ∧
      0 < cntOf s it) := by
  have hmain := mostBids_eq s
  refine ⟨hmain, ?_⟩
  intro it hit
  rw [hmain] at hit
  by_cases h0 : 0 < listMaxKey (cntOf s) (mvalues s.items)
  · rw [if_pos h0] at hit
    have hp := List.find?_some hit
    have hmem := List.mem_of_find?_eq_some hit
    simp only [decide_eq_true_eq] at hp
    have hle : cntOf s it ≤ listMaxKey (cntOf s) (mvalues s.items) :=
      le_listMaxKey_of_mem hmem
    exact ⟨hmem, le_antisymm hle hp, lt_of_lt_of_le h0 hp⟩
  · rw [if_neg h0] at hit
    cases hit

/-- Witness for C6 amended: with one recorded bid the query returns the
item, it has the maximal ledger size, and that size is positive. -/
theorem most_bids_spec_witness :
    (⟨0, 1, "a", "b", 5, some 2, true, none⟩ : Item) ∈
      mvalues oneItemOneBid.items ∧
    cntOf oneItemOneBid ⟨0, 1, "a", "b", 5, some 2, true, none⟩ =
      listMaxKey (cntOf oneItemOneBid) (mvalues oneItemOneBid.items) ∧
    0 < cntOf oneItemOneBid ⟨0, 1, "a", "b", 5, some 2, true, none⟩ :=
  (most_bids_spec oneItemOneBid).2 ⟨0, 1, "a", "b", 5, some 2, true, none⟩
    (by rfl)

/-- Counterexample to C7 as stated: after the owner (principal 7)
successfully stops item 0, a second `stop_listing` by principal 8 fails
with the NotOwner error, not `AlreadyStopped` — the owner check runs
before the already-stopped guard. -/
theorem stop_twice_nonowner_counterexample :
    (stop_listing listedState 7 0).1 = Except.ok stopOkMsg ∧
    (stop_listing stoppedState 8 0).1 = Except.error notOwnerStopMsg ∧
    notOwnerStopMsg ≠ alreadyStoppedMsg := by
  exact ⟨by rfl, by rfl, by decide⟩

/-- C7 amended: after a successful `stop_listing`, the item is inactive
with `new_owner` equal to the `highest_bidder` captured at stop time, and
any sequence of further `stop_listing` calls on that item leaves the
aggregate exactly as the first call left it, each further call failing —
with `AlreadyStopped` when the caller is the owner and the NotOwner error
otherwise. -/
theorem stop_listing_idempotent (s : CanisterState) (c : Principal) (i : Nat)
    (m : String) (s' : CanisterState)
    (h : stop_listing s c i = (Except.ok m, s')) :
    ∃ it, mfind? s.items i = some it ∧
      mfind? s'.items i =
        some { it with active := false, new_owner := it.highest_bidder } ∧
      ∀ callers : List Principal,
        callers.foldl (fun t c2 => (stop_listing t c2 i).2) s' = s' ∧
        ∀ c2, (stop_listing
            (callers.foldl (fun t c2 => (stop_listing t c2 i).2) s') c2 i).1 =
          Except.error
            (if c2 = it.owner then alreadyStoppedMsg else notOwnerStopMsg) := by
  rcases stop_cases s c i with ⟨-, e, herr⟩ | ⟨it, hf, ho, ha, heq⟩
  · rw [h] at herr; simp at herr
  · rw [h] at heq
    have hs' : s' = stopSuccState s i it := congrArg Prod.snd heq
    have hfind : mfind? s'.items i =
        some { it with active := false, new_owner := it.highest_bidder } := by
      rw [hs']
      exact mfind?_minsert_self _ _ _
    have hcall : ∀ c2, stop_listing s' c2 i =
        (Except.error
          (if c2 = it.owner then alreadyStoppedMsg else notOwnerStopMsg),
         s') := by
      intro c2
      by_cases hc2 : c2 = it.owner
      · rw [if_pos hc2]
        exact stop_already hfind (by rw [hc2]) rfl
      · rw [if_neg hc2]
        exact stop_not_owner hfind (fun hcon => hc2 hcon.symm)
    have hfold : ∀ callers : List Principal,
        callers.foldl (fun t c2 => (stop_listing t c2 i).2) s' = s' := by
      intro callers
      induction callers with
      | nil => rfl
      | cons c2 rest ih =>
        rw [List.foldl_cons, show (stop_listing s' c2 i).2 = s' by
          rw [hcall c2]]
        exact ih
    refine ⟨it, hf, hfind, fun callers => ⟨hfold callers, fun c2 => ?_⟩⟩
    rw [hfold callers, hcall c2]

/-- Witness for C7 amended, instantiated at the one-item scenario:
stopping item 0 again — by the owner or by principal 8 — fails as
described and leaves the state unchanged. -/
theorem stop_listing_idempotent_witness :
    (stop_listing stoppedState 7 0).1 = Except.error alreadyStoppedMsg ∧
    (stop_listing stoppedState 8 0).2 = stoppedState := by
  obtain ⟨it, hf, hfind, hrest⟩ :=
    stop_listing_idempotent listedState 7 0 stopOkMsg stoppedState (by rfl)
  have hit : it = ⟨0, 7, "vase", "blue", 0, none, true, none⟩ := by
    have : mfind? listedState.items 0 =
        some ⟨0, 7, "vase", "blue", 0, none, true, none⟩ := by rfl
    rw [this] at hf
    exact (Option.some.inj hf).symm
  constructor
  · have h7 := (hrest []).2 7
    rw [show ([] : List Principal).foldl
        (fun t c2 => (stop_listing t c2 0).2) stoppedState = stoppedState
        from rfl] at h7
    rw [h7, hit]
    rfl
  · have h8 := (hrest [8]).1
    rw [List.foldl_cons, show ([] : List Principal).foldl
        (fun t c2 => (stop_listing t c2 0).2)
        ((stop_listing stoppedState 8 0).2) =
        (stop_listing stoppedState 8 0).2 from rfl] at h8
    exact h8

/-- Counterexample to C8 as stated: the `u64` id counter wraps. After
`2^64 - 1` list calls the counter is `2^64 - 1`; the next `list_item`
leaves the counter at `0` (not advanced by one), and along a trace of
`2^64 + 1` list calls the returned ids repeat. -/
theorem list_item_wrap_counterexample :
    (runOps initialState (listOnlyOps (U64MOD - 1))).next_item_id =
      U64MOD - 1 ∧
    (list_item (runOps initialState (listOnlyOps (U64MOD - 1)))
      0 "n" "d").2.next_item_id = 0 ∧
    ¬ (returnedIds initialState (listOnlyOps (U64MOD + 1))).Nodup := by
  have hM := U64MOD_pos
  have h1 : (runOps initialState (listOnlyOps (U64MOD - 1))).next_item_id =
      U64MOD - 1 := by
    rw [listOnlyOps, runOps_next _ initialState hM,
      listCalls_replicate]
    rw [show initialState.next_item_id = 0 from rfl, Nat.zero_add]
    exact Nat.mod_eq_of_lt (by omega)
  refine ⟨h1, ?_, ?_⟩
  · rw [list_item_next, h1, show U64MOD - 1 + 1 = U64MOD by omega,
      Nat.mod_self]
  · intro hnd
    rw [listOnlyOps, returnedIds_form _ initialState hM,
      listCalls_replicate,
      show initialState.next_item_id = 0 from rfl] at hnd
    have hinj := List.inj_on_of_nodup_map hnd
    have h0 : (0 : Nat) ∈ List.range (U64MOD + 1) := by
      rw [List.mem_range]; omega
    have hU : U64MOD ∈ List.range (U64MOD + 1) := by
      rw [List.mem_range]; omega
    have heq : (0 + 0) % U64MOD = (0 + U64MOD) % U64MOD := by
      rw [Nat.zero_add, Nat.zero_add, Nat.mod_self, Nat.zero_mod]
    exact absurd (hinj h0 hU heq) (by omega)

/-- C8 amended: `list_item` always succeeds, returns the current counter
value as the new id, and advances the counter by exactly 1 modulo `2^64`;
in every reachable state the item ids are pairwise distinct; and along any
trace (save/restore cycles included) with at most `2^64` list calls — the
wrap point — the returned ids never repeat. -/
theorem list_item_monotonic_ids :
    (∀ (s : CanisterState) (c : Principal) (nm ds : String),
      (list_item s c nm ds).1 = s.next_item_id ∧
      (list_item s c nm ds).2.next_item_id =
        (s.next_item_id + 1) % U64MOD) ∧
    (∀ s : CanisterState, Reachable s → (s.items.map Prod.fst).Nodup) ∧
    (∀ ops : List Op, listCalls ops ≤ U64MOD →
      (returnedIds initialState ops).Nodup) := by
  refine ⟨fun s c nm ds => ⟨rfl, rfl⟩, ?_, ?_⟩
  · intro s hs
    exact sortedKeys_nodup (reachable_inv hs).1
  · intro ops hk
    rw [returnedIds_form _ initialState U64MOD_pos,
      show initialState.next_item_id = 0 from rfl]
    refine List.Nodup.map_on ?_ (List.nodup_range _)
    intro x hx y hy hxy
    rw [List.mem_range] at hx hy
    rw [Nat.zero_add, Nat.zero_add, Nat.mod_eq_of_lt (by omega),
      Nat.mod_eq_of_lt (by omega)] at hxy
    exact hxy

/-- Witness for C8 amended at a two-call trace. -/
theorem list_item_monotonic_ids_witness :
    ((list_item initialState 1 "n" "d").1 = initialState.next_item_id ∧
      (list_item initialState 1 "n" "d").2.next_item_id =
        (initialState.next_item_id + 1) % U64MOD) ∧
    (listedState.items.map Prod.fst).Nodup ∧
    (returnedIds initialState (listOnlyOps 2)).Nodup :=
  ⟨list_item_monotonic_ids.1 initialState 1 "n" "d",
   list_item_monotonic_ids.2.1 listedState ⟨[Op.oplist 7 "vase" "blue"], rfl⟩,
   list_item_monotonic_ids.2.2 (listOnlyOps 2)
     (by rw [listOnlyOps, listCalls_replicate]; norm_num [U64MOD])⟩

theorem mfind?_mem {α : Type} {l : Mmap α} {k : Nat} {v : α}
    (h : mfind? l k = some v) : (k, v) ∈ l := by
  induction l with
  | nil => simp [mfind?] at h
  | cons p t ih =>
    obtain ⟨k', v'⟩ := p
    rw [mfind?] at h
    by_cases hk : k = k'
    · rw [if_pos hk] at h
      subst hk
      cases h
      exact List.mem_cons_self _ _
    · rw [if_neg hk] at h
      exact List.mem_cons_of_mem _ (ih h)

/-- C9: in every reachable state, `get_highest_bid_for_item` returns
`some bid` exactly when the item exists and has a highest bidder; the
returned bid's bidder is that `highest_bidder` and its amount is the
item's `current_highest_bid` (the accepting bid writes the item fields
and the ledger entry together, so the winning entry is always present). -/
theorem highest_bid_query_spec (s : CanisterState) (h : Reachable s)
    (i : Nat) :
    (∀ bd, get_highest_bid_for_item s i = some bd →
      ∃ it, mfind? s.items i = some it ∧
        it.highest_bidder = some bd.bidder ∧
        bd.amount = it.current_highest_bid) ∧
    ((get_highest_bid_for_item s i).isSome ↔
      ∃ it, mfind? s.items i = some it ∧ it.highest_bidder.isSome) := by
  obtain ⟨-, -, -, hitems⟩ := reachable_inv h
  have hchase : ∀ it, mfind? s.items i = some it →
      get_highest_bid_for_item s i =
        match it.highest_bidder with
        | some b => some { bidder := b, amount := it.current_highest_bid }
        | none => none := by
    intro it hf
    obtain ⟨hid, L, hL, -, hhb⟩ := hitems i it hf
    cases hb : it.highest_bidder with
    | none => simp [get_highest_bid_for_item, hf, hb]
    | some b =>
      have hentry := hhb b hb
      simp [get_highest_bid_for_item, hf, hb, hid, hL, hentry]
  constructor
  · intro bd hbd
    cases hf : mfind? s.items i with
    | none => simp [get_highest_bid_for_item, hf] at hbd
    | some it =>
      rw [hchase it hf] at hbd
      cases hb : it.highest_bidder with
      | none => rw [hb] at hbd; cases hbd
      | some b =>
        rw [hb] at hbd
        cases hbd
        exact ⟨it, rfl, hb, rfl⟩
  · constructor
    · intro hsome
      cases hf : mfind? s.items i with
      | none => simp [get_highest_bid_for_item, hf] at hsome
      | some it =>
        rw [hchase it hf] at hsome
        cases hb : it.highest_bidder with
        | none => rw [hb] at hsome; cases hsome
        | some b => exact ⟨it, rfl, by rw [hb]; rfl⟩
    · rintro ⟨it, hf, hsome⟩
      rw [hchase it hf]
      cases hb : it.highest_bidder with
      | none => rw [hb] at hsome; cases hsome
      | some b => rfl

/-- Witness for C9 on the two-bid trace: the query answers for item 0. -/
theorem highest_bid_query_spec_witness :
    (get_highest_bid_for_item twoBidState 0).isSome :=
  ((highest_bid_query_spec twoBidState ⟨twoBidOps, rfl⟩ 0).2).mpr
    ⟨⟨0, 1, "vase", "blue", 15, some 3, true, none⟩, by rfl, by rfl⟩

/-- C10: in every reachable state no recorded ledger amount exceeds the
item's `current_highest_bid`, and a successful bid by a caller with an
existing ledger entry strictly exceeds that entry — a bidder's recorded
amount strictly increases across their own successful bids. -/
theorem ledger_amounts_bounded (s : CanisterState) (h : Reachable s)
    (i : Nat) (it : Item) (hf : mfind? s.items i = some it) :
    (∀ p ∈ (mfind? s.item_bids i).getD ([] : Mmap Bid),
      (p : Nat × Bid).2.amount ≤ it.current_highest_bid) ∧
    (∀ (c : Principal) (a : Nat) (m : String) (s' : CanisterState) (bd : Bid),
      bid_for_item s c i a = (Except.ok m, s') →
      mfind? ((mfind? s.item_bids i).getD []) c = some bd →
      bd.amount < a) := by
  obtain ⟨-, -, -, hitems⟩ := reachable_inv h
  obtain ⟨hid, L, hL, hmem, -⟩ := hitems i it hf
  constructor
  · intro p hp
    rw [hL] at hp
    exact (hmem p hp).2
  · intro c a m s' bd hbid hbd
    rcases bid_cases s c i a with ⟨-, e, herr⟩ | ⟨it0, hf0, ha0, ho0, hb0, heq⟩
    · rw [hbid] at herr; simp at herr
    · rw [hf] at hf0
      have hit0 : it0 = it := (Option.some.inj hf0).symm
      subst hit0
      rw [hL] at hbd
      have hle : bd.amount ≤ it0.current_highest_bid :=
        (hmem (c, bd) (mfind?_mem hbd)).2
      omega

/-- Witness for C10: on the two-bid trace, bidder 2's recorded 10 was
strictly below the accepted 15, and ledger amounts stay below the final
highest bid. -/
theorem ledger_amounts_bounded_witness :
    Bid.amount ⟨2, 10⟩ < 15 := by
  have hbase : mfind? (runOps initialState (twoBidOps.take 2)).items 0 =
      some ⟨0, 1, "vase", "blue", 10, some 2, true, none⟩ := by rfl
  exact (ledger_amounts_bounded (runOps initialState (twoBidOps.take 2))
      ⟨twoBidOps.take 2, rfl⟩ 0 ⟨0, 1, "vase", "blue", 10, some 2, true, none⟩
      hbase).2 2 15 bidOkMsg
      (bid_for_item (runOps initialState (twoBidOps.take 2)) 2 0 15).2
      ⟨2, 10⟩ (by rfl) (by rfl)
